import Mathlib

/-!
Verification development for the Vietnamese text-mining core
(text_processor.py / text_deduplicator.py): normalization pipeline,
keyword variant generation, flexible matching, keyword analysis with
chunked batch mode, and multi-source count reconciliation.

Text is modelled as `List Char`.  Python dicts are modelled as
association lists with first-key-wins lookup and in-place update.
Python regular-expression matching of the generated alternation
patterns is modelled by a direct left-to-right, non-overlapping,
first-alternative-wins scanner with the same boundary lookaround
conditions.  Unicode case mapping, the `\w`/`\s` character classes,
and NFD decomposition are modelled by finite tables that are faithful
on the character repertoire this development touches (ASCII,
Vietnamese letters, the characters of the repair tables, and a few
Latin letters such as ø and ß that materially interact with the
repair table through case mapping).
-/

set_option maxRecDepth 20000

namespace TextMining

abbrev Text := List Char

/-- Generic first-match lookup in a character-keyed table. -/
def tlookup {β : Type} (c : Char) : List (Char × β) → Option β
  | [] => none
  | p :: t => if p.1 = c then some p.2 else tlookup c t

/-- VN_FONT_FIX_MAP from text_processor.py, in dict insertion order:
TCVN3 single-character errors, VNI two-character sequences, common OCR
symbol errors, and UTF-8/Latin-1 mojibake pairs. -/
def vnFontFixMap : List (Text × Text) :=
  [ ("µ".toList, "à".toList), ("¸".toList, "á".toList),
    ("¶".toList, "ả".toList), ("·".toList, "ã".toList),
    ("¹".toList, "ạ".toList),
    ("Ì".toList, "è".toList), ("Ð".toList, "é".toList),
    ("Î".toList, "ẻ".toList), ("Ï".toList, "ẽ".toList),
    ("Ñ".toList, "ẹ".toList),
    ("ß".toList, "ò".toList), ("ä".toList, "ọ".toList),
    ("©".toList, "â".toList), ("ª".toList, "ă".toList),
    ("®".toList, "ê".toList), ("«".toList, "ơ".toList),
    ("¬".toList, "ư".toList),
    ("§".toList, "đ".toList),
    ("aø".toList, "à".toList), ("aù".toList, "á".toList),
    ("aû".toList, "ả".toList), ("aõ".toList, "ã".toList),
    ("aï".toList, "ạ".toList),
    ("eø".toList, "è".toList), ("eù".toList, "é".toList),
    ("eû".toList, "ẻ".toList), ("eõ".toList, "ẽ".toList),
    ("eï".toList, "ẹ".toList),
    ("ö".toList, "ô".toList),
    ("–".toList, "-".toList), ("—".toList, "-".toList),
    (": \"\u0027\", ".toList, "\u0027".toList),
    ("\"".toList, "\"".toList),
    ("…".toList, "...".toList), ("•".toList, "-".toList),
    ("Ã ".toList, "à".toList), ("Ã¡".toList, "á".toList),
    ("Ã¢".toList, "â".toList), ("Ã£".toList, "ã".toList),
    ("Ã¨".toList, "è".toList), ("Ã©".toList, "é".toList),
    ("Ãª".toList, "ê".toList),
    ("Ã¬".toList, "ì".toList), ("Ã­".toList, "í".toList),
    ("Ã²".toList, "ò".toList), ("Ã³".toList, "ó".toList),
    ("Ã´".toList, "ô".toList), ("Ãµ".toList, "õ".toList),
    ("Ã¹".toList, "ù".toList), ("Ãº".toList, "ú".toList),
    ("Ä ".toList, "đ".toList), ("Ä".toList, "đ".toList) ]

/-- The repair table as iterated by fix_font_errors:
`sorted(VN_FONT_FIX_MAP.items(), key=lambda x: -len(x[0]))`.  Python's
sort is stable and every key has length 1, 2 or 7, so the sorted order
is: the length-7 key, then all length-2 keys in insertion order, then
all length-1 keys in insertion order. -/
def sortedFontFixPairs : List (Text × Text) :=
  vnFontFixMap.filter (fun p => decide (2 < p.1.length)) ++
    vnFontFixMap.filter (fun p => decide (p.1.length = 2)) ++
      vnFontFixMap.filter (fun p => decide (p.1.length ≤ 1))

/-- VN_DIACRITIC_MAP from text_processor.py: every precomposed
Vietnamese diacritic letter, both cases, mapped to its base lowercase
Latin letter. -/
def vnDiacriticPairs : List (Char × Char) :=
  [ ('à', 'a'), ('á', 'a'), ('ả', 'a'), ('ã', 'a'), ('ạ', 'a'),
    ('ă', 'a'), ('ằ', 'a'), ('ắ', 'a'), ('ẳ', 'a'), ('ẵ', 'a'), ('ặ', 'a'),
    ('â', 'a'), ('ầ', 'a'), ('ấ', 'a'), ('ẩ', 'a'), ('ẫ', 'a'), ('ậ', 'a'),
    ('À', 'a'), ('Á', 'a'), ('Ả', 'a'), ('Ã', 'a'), ('Ạ', 'a'),
    ('Ă', 'a'), ('Ằ', 'a'), ('Ắ', 'a'), ('Ẳ', 'a'), ('Ẵ', 'a'), ('Ặ', 'a'),
    ('Â', 'a'), ('Ầ', 'a'), ('Ấ', 'a'), ('Ẩ', 'a'), ('Ẫ', 'a'), ('Ậ', 'a'),
    ('è', 'e'), ('é', 'e'), ('ẻ', 'e'), ('ẽ', 'e'), ('ẹ', 'e'),
    ('ê', 'e'), ('ề', 'e'), ('ế', 'e'), ('ể', 'e'), ('ễ', 'e'), ('ệ', 'e'),
    ('È', 'e'), ('É', 'e'), ('Ẻ', 'e'), ('Ẽ', 'e'), ('Ẹ', 'e'),
    ('Ê', 'e'), ('Ề', 'e'), ('Ế', 'e'), ('Ể', 'e'), ('Ễ', 'e'), ('Ệ', 'e'),
    ('ì', 'i'), ('í', 'i'), ('ỉ', 'i'), ('ĩ', 'i'), ('ị', 'i'),
    ('Ì', 'i'), ('Í', 'i'), ('Ỉ', 'i'), ('Ĩ', 'i'), ('Ị', 'i'),
    ('ò', 'o'), ('ó', 'o'), ('ỏ', 'o'), ('õ', 'o'), ('ọ', 'o'),
    ('ô', 'o'), ('ồ', 'o'), ('ố', 'o'), ('ổ', 'o'), ('ỗ', 'o'), ('ộ', 'o'),
    ('ơ', 'o'), ('ờ', 'o'), ('ớ', 'o'), ('ở', 'o'), ('ỡ', 'o'), ('ợ', 'o'),
    ('Ò', 'o'), ('Ó', 'o'), ('Ỏ', 'o'), ('Õ', 'o'), ('Ọ', 'o'),
    ('Ô', 'o'), ('Ồ', 'o'), ('Ố', 'o'), ('Ổ', 'o'), ('Ỗ', 'o'), ('Ộ', 'o'),
    ('Ơ', 'o'), ('Ờ', 'o'), ('Ớ', 'o'), ('Ở', 'o'), ('Ỡ', 'o'), ('Ợ', 'o'),
    ('ù', 'u'), ('ú', 'u'), ('ủ', 'u'), ('ũ', 'u'), ('ụ', 'u'),
    ('ư', 'u'), ('ừ', 'u'), ('ứ', 'u'), ('ử', 'u'), ('ữ', 'u'), ('ự', 'u'),
    ('Ù', 'u'), ('Ú', 'u'), ('Ủ', 'u'), ('Ũ', 'u'), ('Ụ', 'u'),
    ('Ư', 'u'), ('Ừ', 'u'), ('Ứ', 'u'), ('Ử', 'u'), ('Ữ', 'u'), ('Ự', 'u'),
    ('ỳ', 'y'), ('ý', 'y'), ('ỷ', 'y'), ('ỹ', 'y'), ('ỵ', 'y'),
    ('Ỳ', 'y'), ('Ý', 'y'), ('Ỷ', 'y'), ('Ỹ', 'y'), ('Ỵ', 'y'),
    ('đ', 'd'), ('Đ', 'd') ]

/-- Case-mapping table modelling Python str.lower on the repertoire in
play: ASCII, Vietnamese uppercase letters, and the Latin-1/Latin
Extended uppercase letters whose lowercase forms interact with the
tables (Ø→ø, ẞ→ß, umlauts, eth, thorn, ...). -/
def lowerPairs : List (Char × Char) :=
  [ ('A', 'a'), ('B', 'b'), ('C', 'c'), ('D', 'd'), ('E', 'e'),
    ('F', 'f'), ('G', 'g'), ('H', 'h'), ('I', 'i'), ('J', 'j'),
    ('K', 'k'), ('L', 'l'), ('M', 'm'), ('N', 'n'), ('O', 'o'),
    ('P', 'p'), ('Q', 'q'), ('R', 'r'), ('S', 's'), ('T', 't'),
    ('U', 'u'), ('V', 'v'), ('W', 'w'), ('X', 'x'), ('Y', 'y'),
    ('Z', 'z'),
    ('À', 'à'), ('Á', 'á'), ('Ả', 'ả'), ('Ã', 'ã'), ('Ạ', 'ạ'),
    ('Ă', 'ă'), ('Ằ', 'ằ'), ('Ắ', 'ắ'), ('Ẳ', 'ẳ'), ('Ẵ', 'ẵ'), ('Ặ', 'ặ'),
    ('Â', 'â'), ('Ầ', 'ầ'), ('Ấ', 'ấ'), ('Ẩ', 'ẩ'), ('Ẫ', 'ẫ'), ('Ậ', 'ậ'),
    ('È', 'è'), ('É', 'é'), ('Ẻ', 'ẻ'), ('Ẽ', 'ẽ'), ('Ẹ', 'ẹ'),
    ('Ê', 'ê'), ('Ề', 'ề'), ('Ế', 'ế'), ('Ể', 'ể'), ('Ễ', 'ễ'), ('Ệ', 'ệ'),
    ('Ì', 'ì'), ('Í', 'í'), ('Ỉ', 'ỉ'), ('Ĩ', 'ĩ'), ('Ị', 'ị'),
    ('Ò', 'ò'), ('Ó', 'ó'), ('Ỏ', 'ỏ'), ('Õ', 'õ'), ('Ọ', 'ọ'),
    ('Ô', 'ô'), ('Ồ', 'ồ'), ('Ố', 'ố'), ('Ổ', 'ổ'), ('Ỗ', 'ỗ'), ('Ộ', 'ộ'),
    ('Ơ', 'ơ'), ('Ờ', 'ờ'), ('Ớ', 'ớ'), ('Ở', 'ở'), ('Ỡ', 'ỡ'), ('Ợ', 'ợ'),
    ('Ù', 'ù'), ('Ú', 'ú'), ('Ủ', 'ủ'), ('Ũ', 'ũ'), ('Ụ', 'ụ'),
    ('Ư', 'ư'), ('Ừ', 'ừ'), ('Ứ', 'ứ'), ('Ử', 'ử'), ('Ữ', 'ữ'), ('Ự', 'ự'),
    ('Ỳ', 'ỳ'), ('Ý', 'ý'), ('Ỷ', 'ỷ'), ('Ỹ', 'ỹ'), ('Ỵ', 'ỵ'),
    ('Đ', 'đ'),
    ('Ø', 'ø'), ('ẞ', 'ß'), ('Ö', 'ö'),
    ('Ä', 'ä'), ('Ü', 'ü'), ('Ë', 'ë'),
    ('Ï', 'ï'), ('Ñ', 'ñ'), ('Ç', 'ç'),
    ('Å', 'å'), ('Æ', 'æ'), ('Ð', 'ð'),
    ('Þ', 'þ') ]

/-- Python str.lower, character-wise, over the modelled repertoire. -/
def lowerChar (c : Char) : Char := (tlookup c lowerPairs).getD c

/-- Character translation via VN_DIACRITIC_MAP (str.translate with the
precompiled table). -/
def translateChar (c : Char) : Char := (tlookup c vnDiacriticPairs).getD c

/-- Canonical (NFD) decompositions for the accented Latin letters the
model decomposes; anything outside the table decomposes to itself.
Every precomposed Vietnamese letter is consumed by the translation
table before this pass runs inside remove_diacritics. -/
def nfdPairs : List (Char × Text) :=
  [ ('ä', ['a', '̈']), ('ö', ['o', '̈']),
    ('ü', ['u', '̈']), ('ë', ['e', '̈']),
    ('ï', ['i', '̈']), ('ÿ', ['y', '̈']),
    ('ñ', ['n', '̃']), ('ç', ['c', '̧']),
    ('å', ['a', '̊']) ]

/-- Unicode NFD of a single character in the model. -/
def nfdChar (c : Char) : Text := (tlookup c nfdPairs).getD [c]

/-- Category Mn (nonspacing combining mark) in the model: the combining
diacritical marks block U+0300–U+036F. -/
def isMn (c : Char) : Bool :=
  decide (768 ≤ c.toNat) && decide (c.toNat ≤ 879)

/-- Python regex `\s` / str whitespace on the modelled repertoire. -/
def isPySpace (c : Char) : Bool :=
  decide (c ∈ [' ', '\t', '\n', '\r', '\x0b', '\x0c',
    '\x1c', '\x1d', '\x1e', '\x1f', '\x85', ' ', ' ',
    ' ', ' ', ' ', ' ', ' ', ' ',
    ' ', ' ', ' ', ' ', ' ',
    ' ', ' ', ' ', ' ', '　'])

/-- Non-ASCII letters known to the model (for the `\w` class). -/
def wordExtraChars : List Char :=
  vnDiacriticPairs.map (fun p => p.1) ++
    [ 'đ', 'Đ', 'ß', 'ẞ', 'ø', 'Ø', 'µ',
      'ö', 'Ö', 'ä', 'Ä', 'ü', 'Ü',
      'ë', 'Ë', 'ï', 'Ï', 'ÿ',
      'ñ', 'Ñ', 'ç', 'Ç', 'å', 'Å',
      'æ', 'Æ', 'ð', 'Ð', 'þ', 'Þ' ]

def isAsciiLowerCh (c : Char) : Bool :=
  decide (97 ≤ c.toNat) && decide (c.toNat ≤ 122)

def isAsciiUpperCh (c : Char) : Bool :=
  decide (65 ≤ c.toNat) && decide (c.toNat ≤ 90)

def isDigitChar (c : Char) : Bool :=
  decide (48 ≤ c.toNat) && decide (c.toNat ≤ 57)

/-- Python regex `\w` (word character) on the modelled repertoire:
ASCII alphanumerics, the underscore, and the known non-ASCII letters. -/
def isWordChar (c : Char) : Bool :=
  isAsciiLowerCh c || isAsciiUpperCh c || isDigitChar c ||
    decide (c = '_') || decide (c ∈ wordExtraChars)

/-- The character class `[a-z0-9]` of the boundary lookarounds, under
re.IGNORECASE (which also makes it match A–Z). -/
def isBoundaryChar (c : Char) : Bool :=
  isAsciiLowerCh c || isDigitChar c || isAsciiUpperCh c

/-- Lowercase letter or digit, exactly as the specification words the
boundary condition. -/
def isLowerDigitChar (c : Char) : Bool :=
  isAsciiLowerCh c || isDigitChar c

/-- Letter in the modelled repertoire (spec-side classifier used to
state what normalize output may contain). -/
def isLetterChar (c : Char) : Bool :=
  isAsciiLowerCh c || isAsciiUpperCh c || decide (c ∈ wordExtraChars)

/-- Boolean prefix test on character lists (exact equality). -/
def isPre : Text → Text → Bool
  | [], _ => true
  | _ :: _, [] => false
  | a :: as, b :: bs => decide (a = b) && isPre as bs

/-- Python str.replace(old, new): all non-overlapping occurrences,
scanning left to right.  Fuelled so that it computes by reduction; the
fuel is at least the length of the scanned list, and each step consumes
at least one character. -/
def strReplaceF (p r : Text) : Nat → Text → Text
  | _, [] => []
  | 0, s => s
  | fuel + 1, c :: cs =>
    if isPre p (c :: cs) then r ++ strReplaceF p r fuel (cs.drop (p.length - 1))
    else c :: strReplaceF p r fuel cs

def strReplace (p r s : Text) : Text := strReplaceF p r s.length s

/-- fix_font_errors: apply every repair-table substitution, longest
patterns first, via repeated str.replace. -/
def fix_font_errors (t : Text) : Text :=
  if t = [] then []
  else sortedFontFixPairs.foldl (fun s pr => strReplace pr.1 pr.2 s) t

/-- text.lower() character-wise. -/
def lowerStr (t : Text) : Text := t.map lowerChar

/-- text.replace(đ, d).replace(Đ, d): step 3 of the pipeline. -/
def dRep (t : Text) : Text := strReplace ['Đ'] ['d'] (strReplace ['đ'] ['d'] t)

/-- remove_diacritics: translate through VN_DIACRITIC_MAP, then NFD
decomposition, then drop category-Mn combining marks. -/
def remove_diacritics (t : Text) : Text :=
  if t = [] then []
  else ((t.map translateChar).flatMap nfdChar).filter (fun c => !(isMn c))

/-- Step 5: regex sub replacing every `[^\w\s]` character by a space. -/
def stripNonAlnum (t : Text) : Text :=
  t.map (fun c => if isWordChar c || isPySpace c then c else ' ')

/-- Step 6 part 1: regex sub collapsing every `\s+` run to one space.
The flag records whether we are inside a whitespace run. -/
def wsColl : Bool → Text → Text
  | _, [] => []
  | inWs, c :: cs =>
    if isPySpace c then
      if inWs then wsColl true cs else ' ' :: wsColl true cs
    else c :: wsColl false cs

/-- Python str.strip(): drop leading and trailing whitespace. -/
def pyStrip (t : Text) : Text :=
  ((t.dropWhile isPySpace).reverse.dropWhile isPySpace).reverse

/-- normalize_text: fix font errors, lowercase, fold đ/Đ to d, remove
diacritics, replace non-word non-space characters by spaces, collapse
whitespace and strip. -/
def normalize_text (t : Text) : Text :=
  if t = [] then []
  else
    pyStrip (wsColl false (stripNonAlnum (remove_diacritics
      (dRep (lowerStr (fix_font_errors t))))))

def normalize_keyword (k : Text) : Text := normalize_text k

/-- keyword.replace(space, j) character-wise. -/
def spaceJoin (j : Char) (n : Text) : Text :=
  n.map (fun c => if c = ' ' then j else c)

/-- generate_keyword_variants: empty for normalized keywords shorter
than 2 characters; the normalized form alone when it has no space;
otherwise the normalized form plus no-space (when longer than 2),
hyphen-, underscore- and dot-joined forms, in set insertion order. -/
def generate_keyword_variants (kw : Text) : List Text :=
  let n := normalize_keyword kw
  if n.length < 2 then []
  else if ' ' ∈ n then
    let ns := n.filter (fun c => decide (c ≠ ' '))
    [n] ++ (if 2 < ns.length then [ns] else []) ++
      [spaceJoin '-' n, spaceJoin '_' n, spaceJoin '.' n]
  else [n]

/-- Case-insensitive prefix test (re.IGNORECASE literal matching). -/
def ciPre : Text → Text → Bool
  | [], _ => true
  | _ :: _, [] => false
  | a :: as, b :: bs => decide (lowerChar a = lowerChar b) && ciPre as bs

/-- One alternative of the compiled pattern
(?<![a-z0-9])(variant)(?![a-z0-9]) matching at position i of text. -/
def matchVariantAt (text v : Text) (i : Nat) : Bool :=
  ciPre v (text.drop i) &&
    (match i with
     | 0 => true
     | j + 1 => !(isBoundaryChar (text.getD j ' '))) &&
    (if text.length ≤ i + v.length then true
     else !(isBoundaryChar (text.getD (i + v.length) ' ')))

/-- findall counting: scan left to right; at each position try the
alternatives in order; a match is consumed (non-overlapping) and the
scan resumes after it, a zero-width match advances by one. -/
def countMF (vs : List Text) (text : Text) : Nat → Nat → Nat
  | 0, _ => 0
  | fuel + 1, i =>
    if text.length ≤ i then 0
    else
      match vs.find? (fun v => matchVariantAt text v i) with
      | some v => 1 + countMF vs text fuel (i + max v.length 1)
      | none => countMF vs text fuel (i + 1)

def countMatches (vs : List Text) (text : Text) : Nat :=
  countMF vs text text.length 0

/-- count_keyword_matches(text, keyword): compile the keyword's
variants and count matches in the normalized text.  An empty variant
list is the never-matching pattern. -/
def count_keyword_matches (text keyword : Text) : Nat :=
  countMatches (generate_keyword_variants keyword) (normalize_text text)

/-- Per-keyword counting step of analyze_text, against an already
normalized text. -/
def count_in (norm k : Text) : Nat :=
  countMatches (generate_keyword_variants k) norm

/-- Python dict lookup on an association list (keys unique in use). -/
def dlookup {α β : Type} [DecidableEq α] (k : α) : List (α × β) → Option β
  | [] => none
  | p :: t => if p.1 = k then some p.2 else dlookup k t

/-- dict.get(k, 0). -/
def dget {α : Type} [DecidableEq α] (k : α) (d : List (α × Nat)) : Nat :=
  (dlookup k d).getD 0

/-- dict assignment d[k] = v: update in place or append. -/
def dset {α β : Type} [DecidableEq α] (k : α) (v : β) :
    List (α × β) → List (α × β)
  | [] => [(k, v)]
  | p :: t => if p.1 = k then (p.1, v) :: t else p :: dset k v t

/-- d[k] = d.get(k, 0) + v. -/
def dadd {α : Type} [DecidableEq α] (k : α) (v : Nat)
    (d : List (α × Nat)) : List (α × Nat) :=
  dset k (dget k d + v) d

/-- The per-keyword loop of analyze_text.  The per-keyword pattern
construction and matching sit inside a try/except; a keyword whose
counting step fails (modelled as the counter returning none) is
skipped, the rest proceed.  A keyword with a positive count is recorded
and its group total incremented. -/
def analyzeLoop (f : Text → Option Nat) :
    List (Text × Nat) → List (Text × Nat) → List (Nat × Nat) →
      List (Text × Nat) × List (Nat × Nat)
  | [], kw, gc => (kw, gc)
  | (k, g) :: rest, kw, gc =>
    match f k with
    | none => analyzeLoop f rest kw gc
    | some c =>
      if 0 < c then analyzeLoop f rest (dset k c kw) (dadd g c gc)
      else analyzeLoop f rest kw gc

/-- Single-pass branch of analyze_text: normalize once, loop over the
keyword map. -/
def analyze_single (t : Text) (m : List (Text × Nat)) :
    List (Text × Nat) × List (Nat × Nat) :=
  if t = [] ∨ m = [] then ([], [])
  else analyzeLoop (fun k => some (count_in (normalize_text t) k)) m [] []

/-- Chunking of _analyze_text_batched: text[i:i+chunk_size] for i in
range(0, len, chunk_size), skipping empty chunks.  Fuelled (the fuel is
at least the length; each step drops at least one character for
positive n). -/
def chunksF (n : Nat) : Nat → Text → List Text
  | 0, _ => []
  | fuel + 1, t => if t = [] then [] else t.take n :: chunksF n fuel (t.drop n)

def chunksOf (n : Nat) (t : Text) : List Text := chunksF n t.length t

/-- Merge one chunk's counts into the running totals (sum per key). -/
def sumDicts {α : Type} [DecidableEq α] (acc d : List (α × Nat)) :
    List (α × Nat) :=
  d.foldl (fun a p => dadd p.1 p.2 a) acc

/-- _analyze_text_batched: split into non-overlapping chunks, normalize
and analyze each chunk independently, and sum both keyword and group
counts across chunks. -/
def analyze_text_batched (t : Text) (m : List (Text × Nat))
    (chunkSize : Nat) : List (Text × Nat) × List (Nat × Nat) :=
  (chunksOf chunkSize t).foldl
    (fun acc ch =>
      let r := analyzeLoop (fun k => some (count_in (normalize_text ch) k)) m [] []
      (sumDicts acc.1 r.1, sumDicts acc.2 r.2))
    ([], [])

def CHUNK_SIZE : Nat := 100000

/-- analyze_text: empty text or empty keyword map yield empty counts;
raw texts longer than CHUNK_SIZE characters go through the batched
path, everything else through the single pass. -/
def analyze_text (t : Text) (m : List (Text × Nat)) :
    List (Text × Nat) × List (Nat × Nat) :=
  if t = [] ∨ m = [] then ([], [])
  else if CHUNK_SIZE < t.length then analyze_text_batched t m CHUNK_SIZE
  else analyze_single t m

/-- analyze_and_merge_keyword_counts: drop sources whose stripped raw
length is not above 50, analyze each survivor independently, merge
keyword counts by per-keyword maximum, and recompute group counts from
the merged keyword counts. -/
def analyze_and_merge_keyword_counts (sources : List Text)
    (m : List (Text × Nat)) : List (Text × Nat) × List (Nat × Nat) :=
  if sources = [] ∨ m = [] then ([], [])
  else
    let valid := sources.filter (fun t => decide (50 < (pyStrip t).length))
    if valid = [] then ([], [])
    else
      let all := valid.map (fun t => (analyze_text t m).1)
      let merged := all.foldl
        (fun acc kwc => kwc.foldl
          (fun a p => if dget p.1 a < p.2 then dset p.1 p.2 a else a) acc) []
      let groups := merged.foldl
        (fun a p => dadd ((dlookup p.1 m).getD 0) p.2 a) []
      (merged, groups)

/-- Modelled from the spec (refinement comparison definition): the
reconciler exactly as section 4.7 of the specification words its
filter, "filters out sources shorter than a minimum length (default 50
normalized characters)" — it keeps the sources whose normalized length
is at least 50, and otherwise merges per-source analyze results by
per-keyword maximum like the source code does. -/
def reconcile_specFiltered (sources : List Text)
    (m : List (Text × Nat)) : List (Text × Nat) × List (Nat × Nat) :=
  if sources = [] ∨ m = [] then ([], [])
  else
    let valid := sources.filter (fun t => decide (50 ≤ (normalize_text t).length))
    if valid = [] then ([], [])
    else
      let all := valid.map (fun t => (analyze_text t m).1)
      let merged := all.foldl
        (fun acc kwc => kwc.foldl
          (fun a p => if dget p.1 a < p.2 then dset p.1 p.2 a else a) acc) []
      let groups := merged.foldl
        (fun a p => dadd ((dlookup p.1 m).getD 0) p.2 a) []
      (merged, groups)

/-! Association-list (Python dict) lemmas. -/

def dkeys {α β : Type} (d : List (α × β)) : List α := d.map Prod.fst

theorem tlookup_mem {β : Type} {c : Char} {v : β} {l : List (Char × β)}
    (h : tlookup c l = some v) : (c, v) ∈ l := by
  induction l with
  | nil => simp [tlookup] at h
  | cons p t ih =>
    rw [tlookup] at h
    split at h
    · next hp =>
      cases h
      have hp2 : p = (c, p.2) := by
        obtain ⟨p1, p2⟩ := p
        simp_all
      rw [hp2]
      exact List.mem_cons_self _ _
    · exact List.mem_cons_of_mem _ (ih h)

theorem dlookup_mem {α β : Type} [DecidableEq α] {k : α} {v : β}
    {d : List (α × β)} (h : dlookup k d = some v) : (k, v) ∈ d := by
  induction d with
  | nil => simp [dlookup] at h
  | cons p t ih =>
    rw [dlookup] at h
    split at h
    · next hp =>
      cases h
      have hp2 : p = (k, p.2) := by
        obtain ⟨p1, p2⟩ := p
        simp_all
      rw [hp2]
      exact List.mem_cons_self _ _
    · exact List.mem_cons_of_mem _ (ih h)

theorem dlookup_isSome_of_mem {α β : Type} [DecidableEq α] {k : α} {v : β}
    {d : List (α × β)} (h : (k, v) ∈ d) : ∃ w, dlookup k d = some w := by
  induction d with
  | nil => simp at h
  | cons p t ih =>
    rw [dlookup]
    by_cases hp : p.1 = k
    · exact ⟨p.2, by simp [hp]⟩
    · rw [if_neg hp]
      rcases List.mem_cons.1 h with h1 | h1
      · exact absurd (by rw [← h1]) hp
      · exact ih h1

theorem dlookup_dset {α β : Type} [DecidableEq α] (k k0 : α) (v : β)
    (d : List (α × β)) :
    dlookup k (dset k0 v d) = if k0 = k then some v else dlookup k d := by
  induction d with
  | nil => by_cases h : k0 = k <;> simp [dset, dlookup, h]
  | cons p t ih =>
    rw [dset]
    by_cases hp : p.1 = k0
    · rw [if_pos hp, dlookup, dlookup]
      by_cases hk : k0 = k
      · rw [if_pos (hp.trans hk), if_pos hk]
      · rw [if_neg (fun h => hk (hp.symm.trans h)),
          if_neg (fun h => hk (hp.symm.trans h)), if_neg hk]
    · rw [if_neg hp, dlookup, dlookup]
      by_cases hk2 : p.1 = k
      · rw [if_pos hk2, if_pos hk2,
          if_neg (fun h : k0 = k => hp (hk2.trans h.symm))]
      · rw [if_neg hk2, if_neg hk2, ih]

theorem dget_dset {α : Type} [DecidableEq α] (k k0 : α) (v : Nat)
    (d : List (α × Nat)) :
    dget k (dset k0 v d) = if k0 = k then v else dget k d := by
  unfold dget
  rw [dlookup_dset]
  split <;> simp

theorem dget_dadd {α : Type} [DecidableEq α] (k k0 : α) (v : Nat)
    (d : List (α × Nat)) :
    dget k (dadd k0 v d) = if k0 = k then dget k d + v else dget k d := by
  unfold dadd
  rw [dget_dset]
  split
  · next h => rw [h]
  · rfl

theorem mem_dkeys_dset {α β : Type} [DecidableEq α] {a k : α} {v : β}
    {d : List (α × β)} (h : a ∈ dkeys (dset k v d)) : a ∈ dkeys d ∨ a = k := by
  induction d with
  | nil => simp [dset, dkeys] at h; right; exact h
  | cons p t ih =>
    rw [dset] at h
    split at h
    · left
      simpa [dkeys] using h
    · rcases List.mem_cons.1 h with h1 | h1
      · left; simp [dkeys, h1]
      · rcases ih h1 with h2 | h2
        · left; simp [dkeys] at h2 ⊢; right; exact h2
        · right; exact h2

theorem nodup_dset {α β : Type} [DecidableEq α] {k : α} {v : β}
    {d : List (α × β)} (h : (dkeys d).Nodup) : (dkeys (dset k v d)).Nodup := by
  induction d with
  | nil => simp [dset, dkeys]
  | cons p t ih =>
    rw [dset]
    split
    · simpa [dkeys] using h
    · next hne =>
      simp only [dkeys, List.map_cons, List.nodup_cons] at h ⊢
      refine ⟨fun hmem => ?_, ih h.2⟩
      rcases mem_dkeys_dset (by simpa [dkeys] using hmem) with h2 | h2
      · exact h.1 (by simpa [dkeys] using h2)
      · exact hne (h2 ▸ rfl)

/-! Character-table facts. -/

theorem lowerChar_idem (c : Char) : lowerChar (lowerChar c) = lowerChar c := by
  have H : ∀ p ∈ lowerPairs, tlookup p.2 lowerPairs = none := by decide
  cases h : tlookup c lowerPairs with
  | none =>
    have hc : lowerChar c = c := by unfold lowerChar; rw [h]; rfl
    rw [hc, hc]
  | some v =>
    have hc : lowerChar c = v := by unfold lowerChar; rw [h]; rfl
    have hv := H _ (tlookup_mem h)
    rw [hc]
    unfold lowerChar
    rw [hv]
    rfl

/-- Characters that survive the normalization pipeline unchanged by
every character-level stage. -/
def goodChar (c : Char) : Prop :=
  lowerChar c = c ∧ translateChar c = c ∧ nfdChar c = [c] ∧
    isMn c = false ∧ c ≠ 'đ' ∧ c ≠ 'Đ'

instance goodChar.instDecidable : DecidablePred goodChar := fun c => by
  unfold goodChar
  infer_instance

theorem goodChar_space : goodChar ' ' := by
  repeat constructor <;> decide

theorem translate_pres {c : Char} (h1 : lowerChar c = c) (h2 : c ≠ 'đ')
    (h3 : c ≠ 'Đ') :
    lowerChar (translateChar c) = translateChar c ∧
      translateChar (translateChar c) = translateChar c ∧
        translateChar c ≠ 'đ' ∧ translateChar c ≠ 'Đ' := by
  have T : ∀ p ∈ vnDiacriticPairs, lowerChar p.2 = p.2 ∧
      tlookup p.2 vnDiacriticPairs = none ∧ p.2 ≠ 'đ' ∧ p.2 ≠ 'Đ' := by decide
  cases h : tlookup c vnDiacriticPairs with
  | none =>
    have hc : translateChar c = c := by unfold translateChar; rw [h]; rfl
    rw [hc]
    exact ⟨h1, hc, h2, h3⟩
  | some v =>
    have hc : translateChar c = v := by unfold translateChar; rw [h]; rfl
    have hv := T _ (tlookup_mem h)
    rw [hc]
    exact ⟨hv.1, by unfold translateChar; rw [hv.2.1]; rfl, hv.2.2.1, hv.2.2.2⟩

theorem nfd_pres {c : Char} (h1 : lowerChar c = c) (ht : translateChar c = c)
    (h2 : c ≠ 'đ') (h3 : c ≠ 'Đ') :
    ∀ x ∈ nfdChar c, isMn x = true ∨ goodChar x := by
  have N : ∀ p ∈ nfdPairs, ∀ x ∈ p.2, isMn x = true ∨ goodChar x := by decide
  cases h : tlookup c nfdPairs with
  | none =>
    have hc : nfdChar c = [c] := by unfold nfdChar; rw [h]; rfl
    intro x hx
    rw [hc] at hx
    rcases List.mem_singleton.1 hx with rfl
    by_cases hm : isMn x = true
    · exact Or.inl hm
    · exact Or.inr ⟨h1, ht, hc, Bool.eq_false_iff.2 hm, h2, h3⟩
  | some v =>
    have hc : nfdChar c = v := by unfold nfdChar; rw [h]; rfl
    rw [hc]
    exact N _ (tlookup_mem h)

/-! str.replace lemmas. -/

theorem isPre_mem : ∀ {p u : Text}, isPre p u = true → ∀ y ∈ p, y ∈ u
  | [], _, _, y, hy => by simp at hy
  | _ :: _, [], h, _, _ => by simp [isPre] at h
  | a :: as, b :: bs, h, y, hy => by
    rw [isPre, Bool.and_eq_true, decide_eq_true_eq] at h
    rcases List.mem_cons.1 hy with rfl | hy2
    · exact h.1 ▸ List.mem_cons_self _ _
    · exact List.mem_cons_of_mem _ (isPre_mem h.2 y hy2)

theorem strReplaceF_mem {p r : Text} :
    ∀ {fuel : Nat} {s : Text} {c' : Char},
      c' ∈ strReplaceF p r fuel s → c' ∈ r ∨ c' ∈ s := by
  intro fuel
  induction fuel with
  | zero =>
    intro s c' h
    cases s with
    | nil => simp [strReplaceF] at h
    | cons c cs => right; simpa [strReplaceF] using h
  | succ n ih =>
    intro s c' h
    cases s with
    | nil => simp [strReplaceF] at h
    | cons c cs =>
      rw [strReplaceF] at h
      split at h
      · rcases List.mem_append.1 h with h1 | h1
        · exact Or.inl h1
        · rcases ih h1 with h2 | h2
          · exact Or.inl h2
          · exact Or.inr (List.mem_cons_of_mem _ (List.mem_of_mem_drop h2))
      · rcases List.mem_cons.1 h with rfl | h1
        · exact Or.inr (List.mem_cons_self _ _)
        · rcases ih h1 with h2 | h2
          · exact Or.inl h2
          · exact Or.inr (List.mem_cons_of_mem _ h2)

theorem strReplaceF_id {P : Char → Prop} {p r : Text}
    (hy : ∃ y ∈ p, ¬ P y) :
    ∀ (fuel : Nat) (s : Text), (∀ x ∈ s, P x) → strReplaceF p r fuel s = s := by
  intro fuel
  induction fuel with
  | zero =>
    intro s _
    cases s <;> simp [strReplaceF]
  | succ n ih =>
    intro s hs
    cases s with
    | nil => simp [strReplaceF]
    | cons c cs =>
      rw [strReplaceF]
      rw [if_neg]
      · rw [ih cs fun x hx => hs x (List.mem_cons_of_mem _ hx)]
      · intro hpre
        obtain ⟨y, hyp, hny⟩ := hy
        exact hny (hs y (isPre_mem hpre y hyp))

theorem strReplace_id {P : Char → Prop} {p r : Text} (hy : ∃ y ∈ p, ¬ P y)
    (s : Text) (hs : ∀ x ∈ s, P x) : strReplace p r s = s :=
  strReplaceF_id hy s.length s hs

theorem strReplace1_abs {a : Char} {r : Text} (hr : a ∉ r) :
    ∀ {fuel : Nat} {s : Text} {c' : Char}, s.length ≤ fuel →
      c' ∈ strReplaceF [a] r fuel s → c' ≠ a := by
  intro fuel
  induction fuel with
  | zero =>
    intro s c' hf h
    rw [List.length_eq_zero.1 (Nat.le_zero.1 hf)] at h
    simp [strReplaceF] at h
  | succ n ih =>
    intro s c' hf h
    cases s with
    | nil => simp [strReplaceF] at h
    | cons c cs =>
      have hcs : cs.length ≤ n := Nat.le_of_succ_le_succ hf
      rw [strReplaceF] at h
      split at h
      · next hpre =>
        rcases List.mem_append.1 h with h1 | h1
        · exact fun he => hr (he ▸ h1)
        · refine ih ?_ h1
          calc (List.drop ([a].length - 1) cs).length
              ≤ cs.length := by simp
            _ ≤ n := hcs
      · next hpre =>
        rcases List.mem_cons.1 h with rfl | h1
        · intro he
          apply hpre
          rw [isPre, he]
          simp [isPre]
        · exact ih hcs h1

theorem strReplace_abs {a : Char} {r : Text} (hr : a ∉ r)
    {s : Text} {c' : Char} (h : c' ∈ strReplace [a] r s) : c' ≠ a :=
  strReplace1_abs hr (le_refl s.length) h

theorem strReplace_mem {p r : Text} {s : Text} {c' : Char}
    (h : c' ∈ strReplace p r s) : c' ∈ r ∨ c' ∈ s :=
  strReplaceF_mem h

/-! Pointwise identity helpers. -/

theorem map_id_of {f : Char → Char} : ∀ {t : Text}, (∀ c ∈ t, f c = c) →
    t.map f = t
  | [], _ => rfl
  | c :: cs, h => by
    rw [List.map_cons, h c (List.mem_cons_self _ _),
      map_id_of fun x hx => h x (List.mem_cons_of_mem _ hx)]

theorem flatMap_id_of : ∀ {t : Text}, (∀ c ∈ t, nfdChar c = [c]) →
    t.flatMap nfdChar = t
  | [], _ => rfl
  | c :: cs, h => by
    rw [List.flatMap_cons, h c (List.mem_cons_self _ _),
      flatMap_id_of fun x hx => h x (List.mem_cons_of_mem _ hx)]
    rfl

theorem fixfold_id {P : Char → Prop} :
    ∀ (l : List (Text × Text)) (s : Text), (∀ x ∈ s, P x) →
      (∀ pr ∈ l, ∃ y ∈ pr.1, ¬ P y) →
      l.foldl (fun s pr => strReplace pr.1 pr.2 s) s = s := by
  intro l
  induction l with
  | nil => intro s _ _; rfl
  | cons pr t ih =>
    intro s hs hl
    rw [List.foldl_cons,
      strReplace_id (hl pr (List.mem_cons_self _ _)) s hs]
    exact ih s hs fun q hq => hl q (List.mem_cons_of_mem _ hq)

theorem fix_font_errors_id {P : Char → Prop}
    (hk : ∀ pr ∈ sortedFontFixPairs, ∃ y ∈ pr.1, ¬ P y)
    {t : Text} (ht : ∀ x ∈ t, P x) : fix_font_errors t = t := by
  unfold fix_font_errors
  split
  · next h => rw [h]
  · exact fixfold_id _ t ht hk

/-! analyzeLoop characterization. -/

theorem dget_nil {α : Type} [DecidableEq α] (k : α) :
    dget k ([] : List (α × Nat)) = 0 := rfl

theorem analyzeLoop_kw_out (f : Text → Option Nat) :
    ∀ (m : List (Text × Nat)) (kw : List (Text × Nat)) (gc : List (Nat × Nat))
      (k : Text), k ∉ dkeys m →
      dlookup k (analyzeLoop f m kw gc).1 = dlookup k kw := by
  intro m
  induction m with
  | nil => intro kw gc k _; rfl
  | cons e rest ih =>
    intro kw gc k hm
    obtain ⟨k0, g0⟩ := e
    have hk : k ≠ k0 := fun h => hm (by simp [dkeys, h])
    have hrest : k ∉ dkeys rest := fun h => hm (by simp [dkeys]; right; simpa [dkeys] using h)
    rw [analyzeLoop]
    cases f k0 with
    | none => exact ih kw gc k hrest
    | some c =>
      dsimp only
      by_cases hc : 0 < c
      · rw [if_pos hc, ih _ _ k hrest, dlookup_dset,
          if_neg (fun h => hk h.symm)]
      · rw [if_neg hc]
        exact ih kw gc k hrest

theorem analyzeLoop_kw_skip (f : Text → Option Nat) :
    ∀ (m : List (Text × Nat)) (kw : List (Text × Nat)) (gc : List (Nat × Nat))
      (k : Text), (∀ c, f k = some c → c = 0) →
      dlookup k (analyzeLoop f m kw gc).1 = dlookup k kw := by
  intro m
  induction m with
  | nil => intro kw gc k _; rfl
  | cons e rest ih =>
    intro kw gc k hf
    obtain ⟨k0, g0⟩ := e
    rw [analyzeLoop]
    cases hf0 : f k0 with
    | none => exact ih kw gc k hf
    | some c =>
      dsimp only
      by_cases hc : 0 < c
      · rw [if_pos hc, ih _ _ k hf, dlookup_dset]
        have hk : k0 ≠ k := by
          intro h
          subst h
          exact Nat.lt_irrefl 0 (hf c hf0 ▸ hc)
        rw [if_neg hk]
      · rw [if_neg hc]
        exact ih kw gc k hf

theorem analyzeLoop_kw_pos (f : Text → Option Nat) :
    ∀ (m : List (Text × Nat)) (kw : List (Text × Nat)) (gc : List (Nat × Nat))
      (k : Text) (c : Nat), f k = some c → 0 < c → k ∈ dkeys m →
      dget k (analyzeLoop f m kw gc).1 = c := by
  intro m
  induction m with
  | nil => intro kw gc k c _ _ hm; simp [dkeys] at hm
  | cons e rest ih =>
    intro kw gc k c hf hc hm
    obtain ⟨k0, g0⟩ := e
    rw [analyzeLoop]
    by_cases hk : k = k0
    · subst hk
      rw [hf]
      dsimp only
      rw [if_pos hc]
      by_cases hr : k ∈ dkeys rest
      · exact ih _ _ k c hf hc hr
      · unfold dget
        rw [analyzeLoop_kw_out f rest _ _ k hr, dlookup_dset, if_pos rfl]
        rfl
    · have hrest : k ∈ dkeys rest := by
        simp [dkeys] at hm
        rcases hm with h | h
        · exact absurd h hk
        · simpa [dkeys] using h
      cases hf0 : f k0 with
      | none => exact ih kw gc k c hf hc hrest
      | some c0 =>
        dsimp only
        by_cases hc0 : 0 < c0
        · rw [if_pos hc0]
          exact ih _ _ k c hf hc hrest
        · rw [if_neg hc0]
          exact ih kw gc k c hf hc hrest

theorem analyzeLoop_gc (f : Text → Option Nat) :
    ∀ (m : List (Text × Nat)) (kw : List (Text × Nat)) (gc : List (Nat × Nat))
      (g : Nat),
      dget g (analyzeLoop f m kw gc).2 =
        dget g gc +
          ((m.map (fun e => if e.2 = g then (f e.1).getD 0 else 0)).sum) := by
  intro m
  induction m with
  | nil => intro kw gc g; simp [analyzeLoop]
  | cons e rest ih =>
    intro kw gc g
    obtain ⟨k0, g0⟩ := e
    rw [analyzeLoop]
    cases hf0 : f k0 with
    | none => rw [ih]; simp [hf0]
    | some c =>
      dsimp only
      by_cases hc : 0 < c
      · rw [if_pos hc, ih, dget_dadd]
        simp only [List.map_cons, List.sum_cons, hf0, Option.getD_some]
        by_cases hg : g0 = g
        · rw [if_pos hg, if_pos hg]
          omega
        · rw [if_neg hg, if_neg hg]
          omega
      · have hc0 : c = 0 := by omega
        subst hc0
        rw [if_neg hc, ih]
        simp [hf0]

theorem analyzeLoop_nodup (f : Text → Option Nat) :
    ∀ (m : List (Text × Nat)) (kw : List (Text × Nat)) (gc : List (Nat × Nat)),
      (dkeys kw).Nodup → (dkeys gc).Nodup →
      (dkeys (analyzeLoop f m kw gc).1).Nodup ∧
        (dkeys (analyzeLoop f m kw gc).2).Nodup := by
  intro m
  induction m with
  | nil => intro kw gc h1 h2; exact ⟨h1, h2⟩
  | cons e rest ih =>
    intro kw gc h1 h2
    obtain ⟨k0, g0⟩ := e
    rw [analyzeLoop]
    cases f k0 with
    | none => exact ih kw gc h1 h2
    | some c =>
      dsimp only
      by_cases hc : 0 < c
      · rw [if_pos hc]
        exact ih _ _ (nodup_dset h1) (nodup_dset h2)
      · rw [if_neg hc]
        exact ih kw gc h1 h2

/-! Dict consistency and the max-merge of the reconciler. -/

theorem dget_cons {α : Type} [DecidableEq α] (k a : α) (b : Nat)
    (t : List (α × Nat)) :
    dget k ((a, b) :: t) = if a = k then b else dget k t := by
  unfold dget
  rw [dlookup]
  by_cases h : a = k
  · simp [h]
  · simp [h]

/-- Every entry of the dict carries the value its key looks up to
(true for dicts with no duplicate keys). -/
def Consistent (d : List (Text × Nat)) : Prop := ∀ p ∈ d, dget p.1 d = p.2

theorem nodup_consistent :
    ∀ {d : List (Text × Nat)}, (dkeys d).Nodup → Consistent d := by
  intro d
  induction d with
  | nil => intro _ p hp; simp at hp
  | cons e t ih =>
    intro h p hp
    obtain ⟨a, b⟩ := e
    simp only [dkeys, List.map_cons, List.nodup_cons] at h
    rcases List.mem_cons.1 hp with rfl | hp2
    · rw [dget_cons, if_pos rfl]
    · rw [dget_cons, if_neg, ih h.2 p hp2]
      intro he
      exact h.1 (he ▸ List.mem_map_of_mem Prod.fst hp2)

theorem consistent_tail {k0 : Text} {v : Nat} {t : List (Text × Nat)}
    (h : Consistent ((k0, v) :: t)) :
    Consistent t ∧ (dget k0 t = 0 ∨ dget k0 t = v) := by
  have hself : ∀ w, dlookup k0 t = some w → w = v := by
    intro w hl
    have hmem := dlookup_mem hl
    have h2 := h (k0, w) (List.mem_cons_of_mem _ hmem)
    rw [dget_cons, if_pos rfl] at h2
    exact h2.symm
  constructor
  · intro p hp
    have hd := h p (List.mem_cons_of_mem _ hp)
    rw [dget_cons] at hd
    by_cases hk : k0 = p.1
    · rw [if_pos hk] at hd
      obtain ⟨w, hw⟩ := dlookup_isSome_of_mem
        (show (p.1, p.2) ∈ t by simpa using hp)
      rw [← hk] at hw
      have hwv : w = v := hself w hw
      unfold dget
      rw [hk] at hw
      rw [hw]
      simp only [Option.getD_some]
      rw [hwv, ← hd]
    · rw [if_neg hk] at hd
      exact hd
  · cases hl : dlookup k0 t with
    | none => left; unfold dget; rw [hl]; rfl
    | some w =>
      right
      unfold dget
      rw [hl]
      simp only [Option.getD_some]
      exact hself w hl

theorem merge_inner (k : Text) :
    ∀ (d : List (Text × Nat)) (acc : List (Text × Nat)), Consistent d →
      dget k (d.foldl
        (fun a p => if dget p.1 a < p.2 then dset p.1 p.2 a else a) acc) =
        max (dget k acc) (dget k d) := by
  intro d
  induction d with
  | nil => intro acc _; simp [dget_nil]
  | cons e t ih =>
    intro acc h
    obtain ⟨k0, v⟩ := e
    obtain ⟨ht, hv2⟩ := consistent_tail h
    rw [List.foldl_cons]
    have hacc' : dget k (if dget k0 acc < v then dset k0 v acc else acc) =
        if k0 = k then max (dget k acc) v else dget k acc := by
      by_cases hlt : dget k0 acc < v
      · rw [if_pos hlt, dget_dset]
        by_cases hk : k0 = k
        · subst hk
          rw [if_pos rfl, if_pos rfl, Nat.max_eq_right (Nat.le_of_lt hlt)]
        · rw [if_neg hk, if_neg hk]
      · rw [if_neg hlt]
        by_cases hk : k0 = k
        · subst hk
          rw [if_pos rfl, Nat.max_eq_left (Nat.not_lt.1 hlt)]
        · rw [if_neg hk]
    rw [ih _ ht, hacc', dget_cons]
    by_cases hk : k0 = k
    · subst hk
      rw [if_pos rfl, if_pos rfl]
      rcases hv2 with h0 | hv
      · rw [h0, Nat.max_zero]
      · rw [hv, Nat.max_assoc, Nat.max_self]
    · rw [if_neg hk, if_neg hk]

theorem merge_outer (k : Text) :
    ∀ (ds : List (List (Text × Nat))) (acc : List (Text × Nat)),
      (∀ d ∈ ds, Consistent d) →
      dget k (ds.foldl
        (fun acc kwc => kwc.foldl
          (fun a p => if dget p.1 a < p.2 then dset p.1 p.2 a else a) acc)
        acc) =
        max (dget k acc) ((ds.map (fun d => dget k d)).foldr max 0) := by
  intro ds
  induction ds with
  | nil => intro acc _; simp
  | cons d rest ih =>
    intro acc h
    rw [List.foldl_cons, ih _ fun x hx => h x (List.mem_cons_of_mem _ hx),
      merge_inner k d acc (h d (List.mem_cons_self _ _)),
      List.map_cons, List.foldr_cons, Nat.max_assoc]

/-! sumDicts lemmas. -/

theorem sum_map_add {α : Type} (f g : α → Nat) :
    ∀ (l : List α), (l.map (fun x => f x + g x)).sum =
      (l.map f).sum + (l.map g).sum := by
  intro l
  induction l with
  | nil => rfl
  | cons a t ih => simp [ih]; omega

theorem dget_sumDicts {α : Type} [DecidableEq α] (k : α) :
    ∀ (d acc : List (α × Nat)),
      dget k (sumDicts acc d) =
        dget k acc + ((d.map (fun p => if p.1 = k then p.2 else 0)).sum) := by
  intro d
  induction d with
  | nil => intro acc; simp [sumDicts]
  | cons p t ih =>
    intro acc
    have hstep : sumDicts acc (p :: t) = sumDicts (dadd p.1 p.2 acc) t := rfl
    rw [hstep, ih, dget_dadd, List.map_cons, List.sum_cons]
    by_cases hk : p.1 = k
    · rw [if_pos hk, if_pos hk]
      omega
    · rw [if_neg hk, if_neg hk]
      omega

theorem sum_zero_of_not_mem {α : Type} [DecidableEq α] {k : α} :
    ∀ {t : List (α × Nat)}, k ∉ dkeys t →
      ((t.map (fun p => if p.1 = k then p.2 else 0)).sum) = 0 := by
  intro t
  induction t with
  | nil => intro _; rfl
  | cons p s ih =>
    intro h
    rw [List.map_cons, List.sum_cons,
      if_neg (fun he => h (by simp [dkeys, he])), ih fun hm => h (by
        simp [dkeys] at hm ⊢
        right
        exact hm)]

theorem sum_entries_eq_dget {α : Type} [DecidableEq α] (k : α) :
    ∀ {d : List (α × Nat)}, (dkeys d).Nodup →
      ((d.map (fun p => if p.1 = k then p.2 else 0)).sum) = dget k d := by
  intro d
  induction d with
  | nil => intro _; rfl
  | cons p t ih =>
    intro h
    obtain ⟨a, b⟩ := p
    simp only [dkeys, List.map_cons, List.nodup_cons] at h
    rw [List.map_cons, List.sum_cons, dget_cons k a b]
    by_cases hk : a = k
    · have hknot : k ∉ dkeys t := hk ▸ (by simpa [dkeys] using h.1)
      rw [if_pos hk, if_pos hk, sum_zero_of_not_mem hknot]
      simp
    · rw [if_neg hk, if_neg hk, ih (by simpa [dkeys] using h.2)]
      omega

theorem sumDicts_nodup {α : Type} [DecidableEq α] :
    ∀ (d acc : List (α × Nat)), (dkeys acc).Nodup →
      (dkeys (sumDicts acc d)).Nodup := by
  intro d
  induction d with
  | nil => intro acc h; exact h
  | cons p t ih =>
    intro acc h
    exact ih _ (nodup_dset h)

/-! Single-pass and batched analyzer lemmas. -/

theorem single_kw (nrm : Text) (m : List (Text × Nat)) (k : Text) (g : Nat)
    (hm : (k, g) ∈ m) :
    dget k (analyzeLoop (fun x => some (count_in nrm x)) m [] []).1 =
      count_in nrm k := by
  by_cases hc : 0 < count_in nrm k
  · exact analyzeLoop_kw_pos _ m [] [] k _ rfl hc
      (List.mem_map_of_mem Prod.fst hm)
  · have h0 : count_in nrm k = 0 := by omega
    unfold dget
    rw [analyzeLoop_kw_skip _ m [] [] k fun c hc2 => by
      cases hc2
      exact h0]
    rw [h0]
    rfl

theorem single_gc (nrm : Text) (m : List (Text × Nat)) (g : Nat) :
    dget g (analyzeLoop (fun x => some (count_in nrm x)) m [] []).2 =
      (m.map (fun e =>
        if e.2 = g then
          dget e.1 (analyzeLoop (fun x => some (count_in nrm x)) m [] []).1
        else 0)).sum := by
  rw [analyzeLoop_gc, dget_nil, Nat.zero_add]
  apply congrArg List.sum
  apply List.map_congr_left
  intro e he
  by_cases hg : e.2 = g
  · rw [if_pos hg, if_pos hg, Option.getD_some,
      single_kw nrm m e.1 e.2 (by simpa using he)]
  · rw [if_neg hg, if_neg hg]

theorem loop_nodup_start (f : Text → Option Nat) (m : List (Text × Nat)) :
    (dkeys (analyzeLoop f m [] []).1).Nodup ∧
      (dkeys (analyzeLoop f m [] []).2).Nodup :=
  analyzeLoop_nodup f m [] [] (by simp [dkeys]) (by simp [dkeys])

theorem batchedFold_nodup (m : List (Text × Nat)) :
    ∀ (chunks : List Text)
      (acc : List (Text × Nat) × List (Nat × Nat)),
      (dkeys acc.1).Nodup → (dkeys acc.2).Nodup →
      (dkeys ((chunks.foldl (fun acc ch =>
        let r := analyzeLoop (fun x => some (count_in (normalize_text ch) x)) m [] []
        (sumDicts acc.1 r.1, sumDicts acc.2 r.2)) acc)).1).Nodup ∧
      (dkeys ((chunks.foldl (fun acc ch =>
        let r := analyzeLoop (fun x => some (count_in (normalize_text ch) x)) m [] []
        (sumDicts acc.1 r.1, sumDicts acc.2 r.2)) acc)).2).Nodup := by
  intro chunks
  induction chunks with
  | nil => intro acc h1 h2; exact ⟨h1, h2⟩
  | cons ch rest ih =>
    intro acc h1 h2
    rw [List.foldl_cons]
    exact ih _ (sumDicts_nodup _ _ h1) (sumDicts_nodup _ _ h2)

theorem batchedFold_kw (m : List (Text × Nat)) (k : Text) (g : Nat)
    (hm : (k, g) ∈ m) :
    ∀ (chunks : List Text)
      (acc : List (Text × Nat) × List (Nat × Nat)),
      dget k ((chunks.foldl (fun acc ch =>
        let r := analyzeLoop (fun x => some (count_in (normalize_text ch) x)) m [] []
        (sumDicts acc.1 r.1, sumDicts acc.2 r.2)) acc)).1 =
        dget k acc.1 +
          (chunks.map (fun ch => count_in (normalize_text ch) k)).sum := by
  intro chunks
  induction chunks with
  | nil => intro acc; simp
  | cons ch rest ih =>
    intro acc
    rw [List.foldl_cons]
    have hr := loop_nodup_start
      (fun x => some (count_in (normalize_text ch) x)) m
    rw [ih]
    dsimp only
    rw [dget_sumDicts, sum_entries_eq_dget k hr.1,
      single_kw (normalize_text ch) m k g hm, List.map_cons, List.sum_cons]
    omega

theorem batchedFold_gc (m : List (Text × Nat)) :
    ∀ (chunks : List Text)
      (acc : List (Text × Nat) × List (Nat × Nat)),
      (dkeys acc.1).Nodup → (dkeys acc.2).Nodup →
      (∀ g : Nat, dget g acc.2 =
        (m.map (fun e => if e.2 = g then dget e.1 acc.1 else 0)).sum) →
      ∀ g : Nat,
        dget g ((chunks.foldl (fun acc ch =>
          let r := analyzeLoop (fun x => some (count_in (normalize_text ch) x)) m [] []
          (sumDicts acc.1 r.1, sumDicts acc.2 r.2)) acc)).2 =
          (m.map (fun e =>
            if e.2 = g then
              dget e.1 ((chunks.foldl (fun acc ch =>
                let r := analyzeLoop (fun x => some (count_in (normalize_text ch) x)) m [] []
                (sumDicts acc.1 r.1, sumDicts acc.2 r.2)) acc)).1
            else 0)).sum := by
  intro chunks
  induction chunks with
  | nil => intro acc _ _ hinv g; exact hinv g
  | cons ch rest ih =>
    intro acc h1 h2 hinv g
    rw [List.foldl_cons]
    dsimp only
    have hr := loop_nodup_start
      (fun x => some (count_in (normalize_text ch) x)) m
    apply ih _ (sumDicts_nodup _ _ h1) (sumDicts_nodup _ _ h2)
    intro g0
    rw [dget_sumDicts, sum_entries_eq_dget g0 hr.2, hinv g0, single_gc]
    rw [← sum_map_add]
    apply congrArg List.sum
    apply List.map_congr_left
    intro e he
    by_cases hg : e.2 = g0
    · rw [if_pos hg, if_pos hg, if_pos hg, dget_sumDicts,
        sum_entries_eq_dget e.1 hr.1]
    · rw [if_neg hg, if_neg hg, if_neg hg]

theorem analyze_text_nodup (t : Text) (m : List (Text × Nat)) :
    (dkeys (analyze_text t m).1).Nodup := by
  unfold analyze_text
  split
  · simp [dkeys]
  · split
    · unfold analyze_text_batched
      exact (batchedFold_nodup m _ ([], [])
        (by simp [dkeys]) (by simp [dkeys])).1
    · unfold analyze_single
      split
      · simp [dkeys]
      · exact (loop_nodup_start _ m).1

/-! Chunking lemmas. -/

theorem chunksF_nil (n : Nat) : ∀ fuel, chunksF n fuel [] = [] := by
  intro fuel
  cases fuel <;> simp [chunksF]

theorem chunksF_join {n : Nat} (hn : 0 < n) :
    ∀ (fuel : Nat) (t : Text), t.length ≤ fuel →
      (chunksF n fuel t).flatten = t := by
  intro fuel
  induction fuel with
  | zero =>
    intro t ht
    rw [List.length_eq_zero.1 (Nat.le_zero.1 ht), chunksF_nil]
    rfl
  | succ f ih =>
    intro t ht
    rw [chunksF]
    by_cases h : t = []
    · rw [if_pos h, h]; rfl
    · rw [if_neg h, List.flatten_cons, ih (t.drop n) (by
        rw [List.length_drop]
        have : 1 ≤ t.length := by
          cases t with
          | nil => exact absurd rfl h
          | cons a b => simp
        omega), List.take_append_drop]

theorem chunksF_mem {n : Nat} (hn : 0 < n) :
    ∀ (fuel : Nat) (t : Text), t.length ≤ fuel →
      ∀ c ∈ chunksF n fuel t, c ≠ [] ∧ c.length ≤ n := by
  intro fuel
  induction fuel with
  | zero =>
    intro t ht c hc
    rw [List.length_eq_zero.1 (Nat.le_zero.1 ht), chunksF_nil] at hc
    simp at hc
  | succ f ih =>
    intro t ht c hc
    rw [chunksF] at hc
    by_cases h : t = []
    · rw [if_pos h] at hc; simp at hc
    · rw [if_neg h] at hc
      rcases List.mem_cons.1 hc with rfl | hc2
      · constructor
        · cases t with
          | nil => exact absurd rfl h
          | cons a b =>
            cases n with
            | zero => omega
            | succ n2 => simp [List.take]
        · rw [List.length_take]
          omega
      · exact ih (t.drop n) (by
          rw [List.length_drop]
          have : 1 ≤ t.length := by
            cases t with
            | nil => exact absurd rfl h
            | cons a b => simp
          omega) c hc2

theorem chunksF_congr {n : Nat} (hn : 0 < n) :
    ∀ (f1 f2 : Nat) (t : Text), t.length ≤ f1 → t.length ≤ f2 →
      chunksF n f1 t = chunksF n f2 t := by
  intro f1
  induction f1 with
  | zero =>
    intro f2 t h1 _
    rw [List.length_eq_zero.1 (Nat.le_zero.1 h1), chunksF_nil, chunksF_nil]
  | succ f ih =>
    intro f2 t h1 h2
    by_cases h : t = []
    · rw [h, chunksF_nil, chunksF_nil]
    · have hlen : 1 ≤ t.length := by
        cases t with
        | nil => exact absurd rfl h
        | cons a b => simp
      cases f2 with
      | zero => omega
      | succ f2n =>
        rw [chunksF, chunksF, if_neg h, if_neg h,
          ih f2n (t.drop n) (by rw [List.length_drop]; omega)
            (by rw [List.length_drop]; omega)]

/-! Shape of normalize_text output. -/

/-- No two adjacent space characters. -/
def NoTwoSpaces (t : Text) : Prop :=
  List.Chain' (fun a b => ¬(a = ' ' ∧ b = ' ')) t

/-- Every whitespace character of the text is the plain space. -/
def WsOnlySpace (t : Text) : Prop := ∀ c ∈ t, isPySpace c = true → c = ' '

/-- The first character, when present, is not whitespace. -/
def HeadNotWs (t : Text) : Prop := ∀ x, t.head? = some x → isPySpace x = false

/-- The last character, when present, is not whitespace. -/
def LastNotWs (t : Text) : Prop :=
  ∀ x, t.getLast? = some x → isPySpace x = false

theorem lowerStr_fixed (t : Text) : ∀ c ∈ lowerStr t, lowerChar c = c := by
  intro c hc
  obtain ⟨a, _, rfl⟩ := List.mem_map.1 hc
  exact lowerChar_idem a

theorem dRep_props (t : Text) (h : ∀ c ∈ t, lowerChar c = c) :
    ∀ c ∈ dRep t, lowerChar c = c ∧ c ≠ 'đ' ∧ c ≠ 'Đ' := by
  intro c hc
  unfold dRep at hc
  have h1 : ∀ x ∈ strReplace ['đ'] ['d'] t, lowerChar x = x ∧ x ≠ 'đ' := by
    intro x hx
    constructor
    · rcases strReplace_mem hx with hr | hs
      · rcases List.mem_singleton.1 hr with rfl
        decide
      · exact h x hs
    · exact strReplace_abs (by decide) hx
  refine ⟨?_, ?_, ?_⟩
  · rcases strReplace_mem hc with hr | hs
    · rcases List.mem_singleton.1 hr with rfl
      decide
    · exact (h1 _ hs).1
  · rcases strReplace_mem hc with hr | hs
    · rcases List.mem_singleton.1 hr with rfl
      decide
    · exact (h1 _ hs).2
  · exact strReplace_abs (by decide) hc

theorem remove_diacritics_good (t : Text)
    (h : ∀ c ∈ t, lowerChar c = c ∧ c ≠ 'đ' ∧ c ≠ 'Đ') :
    ∀ c ∈ remove_diacritics t, goodChar c := by
  unfold remove_diacritics
  split
  · intro c hc
    simp at hc
  · intro c hc
    rw [List.mem_filter] at hc
    obtain ⟨hmem, hmn⟩ := hc
    obtain ⟨c1, hc1, hcn⟩ := List.mem_flatMap.1 hmem
    obtain ⟨c0, hc0, rfl⟩ := List.mem_map.1 hc1
    obtain ⟨hL, hd1, hd2⟩ := h c0 hc0
    obtain ⟨hL1, hT1, hd1a, hd2a⟩ := translate_pres hL hd1 hd2
    rcases nfd_pres hL1 hT1 hd1a hd2a c hcn with hmn2 | hgood
    · rw [hmn2] at hmn
      simp at hmn
    · exact hgood

theorem stripNonAlnum_mem (t : Text) :
    ∀ c ∈ stripNonAlnum t,
      c = ' ' ∨ (c ∈ t ∧ (isWordChar c || isPySpace c) = true) := by
  intro c hc
  obtain ⟨a, ha, he⟩ := List.mem_map.1 hc
  by_cases hcond : (isWordChar a || isPySpace a) = true
  · rw [if_pos hcond] at he
    right
    exact ⟨he ▸ ha, he ▸ hcond⟩
  · rw [if_neg hcond] at he
    left
    exact he.symm

theorem wsColl_mem : ∀ (b : Bool) (t : Text), ∀ c ∈ wsColl b t,
    c = ' ' ∨ (c ∈ t ∧ isPySpace c = false) := by
  intro b t
  induction t generalizing b with
  | nil => intro c hc; simp [wsColl] at hc
  | cons a cs ih =>
    intro c hc
    rw [wsColl] at hc
    by_cases hws : isPySpace a = true
    · rw [if_pos hws] at hc
      cases b with
      | true =>
        rcases ih true c hc with h | ⟨h1, h2⟩
        · exact Or.inl h
        · exact Or.inr ⟨List.mem_cons_of_mem _ h1, h2⟩
      | false =>
        rcases List.mem_cons.1 hc with rfl | hc2
        · exact Or.inl rfl
        · rcases ih true c hc2 with h | ⟨h1, h2⟩
          · exact Or.inl h
          · exact Or.inr ⟨List.mem_cons_of_mem _ h1, h2⟩
    · rw [if_neg hws] at hc
      rcases List.mem_cons.1 hc with rfl | hc2
      · exact Or.inr ⟨List.mem_cons_self _ _, Bool.eq_false_iff.2 hws⟩
      · rcases ih false c hc2 with h | ⟨h1, h2⟩
        · exact Or.inl h
        · exact Or.inr ⟨List.mem_cons_of_mem _ h1, h2⟩

theorem wsColl_true_head : ∀ (t : Text) (x : Char),
    (wsColl true t).head? = some x → isPySpace x = false := by
  intro t
  induction t with
  | nil => intro x hx; simp [wsColl] at hx
  | cons a cs ih =>
    intro x hx
    rw [wsColl] at hx
    by_cases hws : isPySpace a = true
    · rw [if_pos hws, if_pos rfl] at hx
      exact ih x hx
    · rw [if_neg hws] at hx
      cases hx
      exact Bool.eq_false_iff.2 hws

theorem wsColl_chain : ∀ (b : Bool) (t : Text), NoTwoSpaces (wsColl b t) := by
  intro b t
  induction t generalizing b with
  | nil => simp [wsColl, NoTwoSpaces]
  | cons a cs ih =>
    rw [NoTwoSpaces, wsColl]
    by_cases hws : isPySpace a = true
    · rw [if_pos hws]
      cases b with
      | true => exact ih true
      | false =>
        rw [if_neg (by simp)]
        refine List.chain'_cons'.2 ⟨?_, ih true⟩
        intro y hy
        intro hcon
        have := wsColl_true_head cs y hy
        rw [hcon.2] at this
        simp [isPySpace] at this
    · rw [if_neg hws]
      refine List.chain'_cons'.2 ⟨?_, ih false⟩
      intro y _ hcon
      rw [hcon.1] at hws
      simp [isPySpace] at hws

theorem wsColl_wsOnly (b : Bool) (t : Text) : WsOnlySpace (wsColl b t) := by
  intro c hc hws
  rcases wsColl_mem b t c hc with h | ⟨_, h2⟩
  · exact h
  · rw [hws] at h2
    cases h2

theorem dropWhile_head_flag {p : Char → Bool} : ∀ (l : Text) (x : Char),
    (l.dropWhile p).head? = some x → p x = false := by
  intro l
  induction l with
  | nil => intro x hx; simp at hx
  | cons a cs ih =>
    intro x hx
    rw [List.dropWhile_cons] at hx
    split at hx
    · exact ih x hx
    · next h =>
      cases hx
      exact Bool.eq_false_iff.2 h

theorem chain_dropWhile {p : Char → Bool} :
    ∀ {l : Text}, NoTwoSpaces l → NoTwoSpaces (l.dropWhile p) := by
  intro l
  induction l with
  | nil => intro h; exact h
  | cons a cs ih =>
    intro h
    rw [List.dropWhile_cons]
    split
    · exact ih (List.chain'_cons'.1 h).2
    · exact h

theorem chain_reverse_iff {l : Text} : NoTwoSpaces l.reverse ↔ NoTwoSpaces l := by
  unfold NoTwoSpaces
  rw [List.chain'_reverse]
  constructor
  · exact fun h => h.imp fun a b hab h2 => hab ⟨h2.2, h2.1⟩
  · exact fun h => h.imp fun a b hab h2 => hab ⟨h2.2, h2.1⟩

theorem pyStrip_prefix (t : Text) :
    ∃ rest, pyStrip t ++ rest = t.dropWhile isPySpace := by
  obtain ⟨pre, hpre⟩ :=
    List.dropWhile_suffix (l := (t.dropWhile isPySpace).reverse) isPySpace
  refine ⟨pre.reverse, ?_⟩
  have h2 := congrArg List.reverse hpre
  rw [List.reverse_append, List.reverse_reverse] at h2
  exact h2

theorem prefix_head {l1 l2 : Text} (rest : Text) (h : l1 ++ rest = l2)
    {x : Char} (hx : l1.head? = some x) : l2.head? = some x := by
  cases l1 with
  | nil => simp at hx
  | cons a t =>
    cases hx
    rw [← h]
    rfl

theorem pyStrip_head (t : Text) : HeadNotWs (pyStrip t) := by
  intro x hx
  obtain ⟨rest, hr⟩ := pyStrip_prefix t
  exact dropWhile_head_flag t x (prefix_head rest hr hx)

theorem pyStrip_last (t : Text) : LastNotWs (pyStrip t) := by
  intro x hx
  have heq : pyStrip t =
      ((t.dropWhile isPySpace).reverse.dropWhile isPySpace).reverse := rfl
  rw [heq, List.getLast?_reverse] at hx
  exact dropWhile_head_flag _ x hx

theorem pyStrip_chain {t : Text} (h : NoTwoSpaces t) :
    NoTwoSpaces (pyStrip t) := by
  have h1 : NoTwoSpaces (t.dropWhile isPySpace) := chain_dropWhile h
  have h2 : NoTwoSpaces (t.dropWhile isPySpace).reverse :=
    chain_reverse_iff.2 h1
  have h3 : NoTwoSpaces ((t.dropWhile isPySpace).reverse.dropWhile isPySpace) :=
    chain_dropWhile h2
  exact chain_reverse_iff.2 h3

theorem pyStrip_mem {t : Text} : ∀ c ∈ pyStrip t, c ∈ t := by
  intro c hc
  have heq : pyStrip t =
      ((t.dropWhile isPySpace).reverse.dropWhile isPySpace).reverse := rfl
  rw [heq, List.mem_reverse] at hc
  have hc2 := (List.dropWhile_sublist (l := (t.dropWhile isPySpace).reverse)
    (p := isPySpace)).subset hc
  rw [List.mem_reverse] at hc2
  exact (List.dropWhile_sublist (l := t) (p := isPySpace)).subset hc2

theorem wsColl_fix : ∀ (t : Text) (b : Bool), NoTwoSpaces t → WsOnlySpace t →
    (b = true → HeadNotWs t) → wsColl b t = t := by
  intro t
  induction t with
  | nil => intro b _ _ _; rfl
  | cons a cs ih =>
    intro b hchain hws hh
    by_cases haw : isPySpace a = true
    · have ha : a = ' ' := hws a (List.mem_cons_self _ _) haw
      cases b with
      | true =>
        have := hh rfl a rfl
        rw [haw] at this
        cases this
      | false =>
        rw [wsColl, if_pos haw, if_neg (by simp)]
        have hcs : wsColl true cs = cs := by
          apply ih true (List.chain'_cons'.1 hchain).2
            (fun c hc h2 => hws c (List.mem_cons_of_mem _ hc) h2)
          intro _ y hy
          have hr := (List.chain'_cons'.1 hchain).1 y hy
          by_cases hy2 : isPySpace y = true
          · have hy3 : y = ' ' :=
              hws y (List.mem_cons_of_mem a (List.mem_of_mem_head? hy)) hy2
            exact absurd ⟨ha, hy3⟩ hr
          · exact Bool.eq_false_iff.2 hy2
        rw [hcs, ha]
    · rw [wsColl, if_neg haw]
      rw [ih false (List.chain'_cons'.1 hchain).2
        (fun c hc h2 => hws c (List.mem_cons_of_mem _ hc) h2)
        (fun h => by cases h)]

theorem pyStrip_fix (t : Text) (hh : HeadNotWs t) (hl : LastNotWs t) :
    pyStrip t = t := by
  have h1 : t.dropWhile isPySpace = t := by
    cases t with
    | nil => rfl
    | cons c cs =>
      rw [List.dropWhile_cons, if_neg]
      rw [hh c rfl]
      simp
  have heq : pyStrip t =
      ((t.dropWhile isPySpace).reverse.dropWhile isPySpace).reverse := rfl
  rw [heq, h1]
  have h2 : t.reverse.dropWhile isPySpace = t.reverse := by
    cases hr : t.reverse with
    | nil => rfl
    | cons c cs =>
      rw [List.dropWhile_cons, if_neg]
      have : t.getLast? = some c := by
        rw [← List.head?_reverse, hr]
        rfl
      rw [hl c this]
      simp
  rw [h2, List.reverse_reverse]

/-! The five shape facts of normalize_text output. -/

theorem normalize_chars (t : Text) :
    ∀ c ∈ normalize_text t, (isWordChar c = true ∧ goodChar c) ∨ c = ' ' := by
  unfold normalize_text
  split
  · intro c hc
    simp at hc
  · intro c hc
    have hc1 := pyStrip_mem c hc
    rcases wsColl_mem false _ c hc1 with rfl | ⟨hc2, hnw⟩
    · exact Or.inr rfl
    · rcases stripNonAlnum_mem _ c hc2 with rfl | ⟨hc3, hcond⟩
      · exact Or.inr rfl
      · have hgood : goodChar c :=
          remove_diacritics_good _ (dRep_props _ (lowerStr_fixed _)) c hc3
        have hword : isWordChar c = true := by
          rcases Bool.or_eq_true_iff.1 hcond with h | h
          · exact h
          · rw [h] at hnw
            cases hnw
        exact Or.inl ⟨hword, hgood⟩

theorem normalize_chain (t : Text) : NoTwoSpaces (normalize_text t) := by
  unfold normalize_text
  split
  · simp [NoTwoSpaces]
  · exact pyStrip_chain (wsColl_chain false _)

theorem normalize_wsOnly (t : Text) : WsOnlySpace (normalize_text t) := by
  unfold normalize_text
  split
  · intro c hc
    simp at hc
  · intro c hc hws
    exact wsColl_wsOnly false _ c (pyStrip_mem c hc) hws

theorem normalize_head (t : Text) : HeadNotWs (normalize_text t) := by
  unfold normalize_text
  split
  · intro x hx
    simp at hx
  · exact pyStrip_head _

theorem normalize_last (t : Text) : LastNotWs (normalize_text t) := by
  unfold normalize_text
  split
  · intro x hx
    simp at hx
  · exact pyStrip_last _

/-- On a string satisfying the output shape of normalize_text, a second
normalization pass is the identity as soon as the font-repair step
fixes nothing. -/
theorem normalize_fixpoint (r : Text)
    (hchars : ∀ c ∈ r, (isWordChar c = true ∧ goodChar c) ∨ c = ' ')
    (hchain : NoTwoSpaces r) (hws : WsOnlySpace r)
    (hh : HeadNotWs r) (hl : LastNotWs r)
    (hfix : fix_font_errors r = r) : normalize_text r = r := by
  by_cases hr : r = []
  · rw [hr]
    rfl
  · unfold normalize_text
    rw [if_neg hr, hfix]
    have hlow : lowerStr r = r := map_id_of fun c hc => by
      rcases hchars c hc with ⟨_, hg⟩ | rfl
      · exact hg.1
      · decide
    rw [hlow]
    have hdr : dRep r = r := by
      unfold dRep
      rw [strReplace_id (P := fun x => x ≠ 'đ')
        ⟨'đ', List.mem_singleton.2 rfl, by simp⟩ r (fun x hx => by
          rcases hchars x hx with ⟨_, hg⟩ | rfl
          · exact hg.2.2.2.2.1
          · decide),
        strReplace_id (P := fun x => x ≠ 'Đ')
        ⟨'Đ', List.mem_singleton.2 rfl, by simp⟩ r (fun x hx => by
          rcases hchars x hx with ⟨_, hg⟩ | rfl
          · exact hg.2.2.2.2.2
          · decide)]
    rw [hdr]
    have hrd : remove_diacritics r = r := by
      unfold remove_diacritics
      rw [if_neg hr]
      have ht : r.map translateChar = r := map_id_of fun c hc => by
        rcases hchars c hc with ⟨_, hg⟩ | rfl
        · exact hg.2.1
        · decide
      rw [ht, flatMap_id_of fun c hc => by
        rcases hchars c hc with ⟨_, hg⟩ | rfl
        · exact hg.2.2.1
        · decide]
      rw [List.filter_eq_self.2 fun c hc => by
        rcases hchars c hc with ⟨_, hg⟩ | rfl
        · rw [hg.2.2.2.1]
          rfl
        · decide]
    rw [hrd]
    have hsn : stripNonAlnum r = r := map_id_of fun c hc => by
      rcases hchars c hc with ⟨hw, _⟩ | rfl
      · rw [if_pos (by rw [hw]; rfl)]
      · rw [if_pos (by decide)]
    rw [hsn, wsColl_fix r false hchain hws (fun h => by cases h),
      pyStrip_fix r hh hl]

/-! Computation lemmas for long texts drawn from a restricted
alphabet (used to evaluate the analyzer on inputs past the batch
threshold without unfolding the pipeline character by character). -/

theorem normalize_early_id {A : List Char}
    (hfix : ∀ pr ∈ sortedFontFixPairs, ∃ y ∈ pr.1, ¬ y ∈ A)
    (hlower : ∀ x ∈ A, lowerChar x = x)
    (hd1 : 'đ' ∉ A) (hd2 : 'Đ' ∉ A)
    (htr : ∀ x ∈ A, translateChar x = x)
    (hnfd : ∀ x ∈ A, nfdChar x = [x])
    (hmn : ∀ x ∈ A, isMn x = false)
    {t : Text} (ht : ∀ c ∈ t, c ∈ A) :
    normalize_text t = pyStrip (wsColl false (stripNonAlnum t)) := by
  by_cases hnil : t = []
  · rw [hnil]
    rfl
  · unfold normalize_text
    rw [if_neg hnil,
      fix_font_errors_id (P := fun x => x ∈ A) hfix ht,
      show lowerStr t = t from map_id_of fun c hc => hlower c (ht c hc)]
    have hdr : dRep t = t := by
      unfold dRep
      rw [strReplace_id (P := fun x => x ≠ 'đ')
        ⟨'đ', List.mem_singleton.2 rfl, by simp⟩ t
        (fun x hx => fun he => hd1 (he ▸ ht x hx)),
        strReplace_id (P := fun x => x ≠ 'Đ')
        ⟨'Đ', List.mem_singleton.2 rfl, by simp⟩ t
        (fun x hx => fun he => hd2 (he ▸ ht x hx))]
    rw [hdr]
    have hrd : remove_diacritics t = t := by
      unfold remove_diacritics
      rw [if_neg hnil,
        show t.map translateChar = t from
          map_id_of fun c hc => htr c (ht c hc),
        flatMap_id_of fun c hc => hnfd c (ht c hc),
        List.filter_eq_self.2 fun c hc => by rw [hmn c (ht c hc)]; rfl]
    rw [hrd]

theorem stripNonAlnum_append (s t : Text) :
    stripNonAlnum (s ++ t) = stripNonAlnum s ++ stripNonAlnum t :=
  List.map_append _ _ _

theorem stripNonAlnum_replicate_dot (n : Nat) :
    stripNonAlnum (List.replicate n '.') = List.replicate n ' ' := by
  unfold stripNonAlnum
  rw [List.map_replicate,
    show (if (isWordChar '.' || isPySpace '.') = true then '.' else ' ') = ' '
      from by decide]

theorem wsColl_true_replicate (n : Nat) (rest : Text) :
    wsColl true (List.replicate n ' ' ++ rest) = wsColl true rest := by
  induction n with
  | zero => rfl
  | succ m ih =>
    rw [List.replicate_succ, List.cons_append, wsColl, if_pos (by decide),
      if_pos rfl, ih]

theorem wsColl_false_replicate (n : Nat) (rest : Text) (hn : 0 < n) :
    wsColl false (List.replicate n ' ' ++ rest) = ' ' :: wsColl true rest := by
  cases n with
  | zero => omega
  | succ m =>
    rw [List.replicate_succ, List.cons_append, wsColl, if_pos (by decide),
      if_neg (by simp), wsColl_true_replicate]

theorem chunksOf_step {n : Nat} (hn : 0 < n) {t : Text} (ht : t ≠ []) :
    chunksOf n t = t.take n :: chunksOf n (t.drop n) := by
  unfold chunksOf
  have hlen : 1 ≤ t.length := by
    cases t with
    | nil => exact absurd rfl ht
    | cons a b => simp
  cases hL : t.length with
  | zero => omega
  | succ m =>
    rw [chunksF, if_neg ht]
    congr 1
    apply chunksF_congr hn
    · rw [List.length_drop]
      omega
    · exact le_refl _

theorem chunksOf_nil (n : Nat) : chunksOf n [] = [] := by
  unfold chunksOf
  exact chunksF_nil n _

/-! Concrete long input for the batch-threshold analysis: 99999 dots,
then "ab", then a dot; its keyword map contains the single keyword
"ab".  The raw length 100002 exceeds CHUNK_SIZE while the normalized
text "ab" has length 2, and the chunk boundary at 100000 splits the
sole occurrence of "ab". -/

def cexText : Text := List.replicate 99999 '.' ++ ('a' :: 'b' :: '.' :: [])

def cexMap : List (Text × Nat) := [("ab".toList, 0)]

def cexChunk1 : Text := List.replicate 99999 '.' ++ ('a' :: [])

theorem cex_early {t : Text}
    (ht : ∀ c ∈ t, c ∈ ('.' :: 'a' :: 'b' :: [])) :
    normalize_text t = pyStrip (wsColl false (stripNonAlnum t)) :=
  normalize_early_id (by decide) (by decide) (by decide) (by decide)
    (by decide) (by decide) (by decide) ht

theorem cexText_chars : ∀ c ∈ cexText, c ∈ ('.' :: 'a' :: 'b' :: []) := by
  intro c hc
  unfold cexText at hc
  rcases List.mem_append.1 hc with h | h
  · rw [List.eq_of_mem_replicate h]
    simp
  · simp only [List.mem_cons, List.not_mem_nil, or_false] at h ⊢
    tauto

theorem cexChunk1_chars : ∀ c ∈ cexChunk1, c ∈ ('.' :: 'a' :: 'b' :: []) := by
  intro c hc
  unfold cexChunk1 at hc
  rcases List.mem_append.1 hc with h | h
  · rw [List.eq_of_mem_replicate h]
    simp
  · simp only [List.mem_cons, List.not_mem_nil, or_false] at h ⊢
    tauto

theorem cexText_norm : normalize_text cexText = ('a' :: 'b' :: []) := by
  rw [cex_early cexText_chars]
  unfold cexText
  rw [stripNonAlnum_append, stripNonAlnum_replicate_dot,
    show stripNonAlnum ('a' :: 'b' :: '.' :: []) = ('a' :: 'b' :: ' ' :: [])
      from by decide,
    wsColl_false_replicate _ _ (by omega),
    show wsColl true ('a' :: 'b' :: ' ' :: []) = ('a' :: 'b' :: ' ' :: [])
      from by decide]
  decide

theorem cexChunk1_norm : normalize_text cexChunk1 = ('a' :: []) := by
  rw [cex_early cexChunk1_chars]
  unfold cexChunk1
  rw [stripNonAlnum_append, stripNonAlnum_replicate_dot,
    show stripNonAlnum ('a' :: []) = ('a' :: []) from by decide,
    wsColl_false_replicate _ _ (by omega),
    show wsColl true ('a' :: []) = ('a' :: []) from by decide]
  decide

theorem cexText_len : cexText.length = 100002 := by
  unfold cexText
  rw [List.length_append, List.length_replicate]
  rfl

theorem cex_ne : ¬(cexText = [] ∨ cexMap = []) := by
  rintro (h | h)
  · have h2 := cexText_len
    rw [h] at h2
    simp at h2
  · simp [cexMap] at h

theorem cex_chunks :
    chunksOf CHUNK_SIZE cexText = cexChunk1 :: (('b' :: '.' :: []) :: []) := by
  have hne : cexText ≠ [] := by
    intro h
    have h2 := cexText_len
    rw [h] at h2
    simp at h2
  rw [chunksOf_step (by decide) hne]
  have htake : cexText.take CHUNK_SIZE = cexChunk1 := by
    unfold cexText cexChunk1
    rw [List.take_append_eq_append_take,
      List.take_of_length_le (by rw [List.length_replicate]; decide),
      List.length_replicate]
    rfl
  have hdrop : cexText.drop CHUNK_SIZE = ('b' :: '.' :: []) := by
    unfold cexText
    rw [List.drop_append_eq_append_drop,
      List.drop_eq_nil_of_le (by rw [List.length_replicate]; decide),
      List.length_replicate]
    rfl
  rw [htake, hdrop, chunksOf_step (by decide) (by decide)]
  rw [show List.take CHUNK_SIZE ('b' :: '.' :: []) = ('b' :: '.' :: [])
      from by decide,
    show List.drop CHUNK_SIZE ('b' :: '.' :: []) = ([] : Text)
      from by decide,
    chunksOf_nil]

theorem cex_code_result : analyze_text cexText cexMap = ([], []) := by
  unfold analyze_text
  rw [if_neg cex_ne, if_pos (by rw [cexText_len]; decide)]
  unfold analyze_text_batched
  rw [cex_chunks, List.foldl_cons, List.foldl_cons, List.foldl_nil]
  dsimp only
  rw [cexChunk1_norm,
    show normalize_text ('b' :: '.' :: []) = ('b' :: []) from by decide]
  decide

theorem cex_claim_side :
    (if CHUNK_SIZE < (normalize_text cexText).length
      then analyze_text_batched cexText cexMap CHUNK_SIZE
      else analyze_single cexText cexMap) =
      ([(("ab".toList), 1)], [(0, 1)]) := by
  rw [cexText_norm, if_neg (by decide)]
  unfold analyze_single
  rw [if_neg cex_ne, cexText_norm]
  decide

/-! Reconciler merge characterization and further helpers. -/

theorem sum_zero_fun {α : Type} {f : α → Nat} :
    ∀ {l : List α}, (∀ e ∈ l, f e = 0) → (l.map f).sum = 0 := by
  intro l
  induction l with
  | nil => intro _; rfl
  | cons a t ih =>
    intro h
    rw [List.map_cons, List.sum_cons, h a (List.mem_cons_self _ _),
      ih fun e he => h e (List.mem_cons_of_mem _ he)]

theorem countMatches_nil (vs : List Text) : countMatches vs [] = 0 := rfl

theorem countMF_no_variants (text : Text) :
    ∀ (fuel i : Nat), countMF [] text fuel i = 0 := by
  intro fuel
  induction fuel with
  | zero => intro i; rfl
  | succ f ih =>
    intro i
    rw [countMF]
    split
    · rfl
    · rw [List.find?_nil]
      exact ih (i + 1)

theorem analyze_text_empty_map (t : Text) : analyze_text t [] = ([], []) := by
  unfold analyze_text
  rw [if_pos (Or.inr rfl)]

theorem foldr_max_zero : ∀ {l : List Nat}, (∀ x ∈ l, x = 0) →
    l.foldr max 0 = 0 := by
  intro l
  induction l with
  | nil => intro _; rfl
  | cons a t ih =>
    intro h
    rw [List.foldr_cons, h a (List.mem_cons_self _ _),
      ih fun x hx => h x (List.mem_cons_of_mem _ hx)]
    exact Nat.max_self 0

theorem merged_dget (S : List Text) (m : List (Text × Nat)) (k : Text) :
    dget k (analyze_and_merge_keyword_counts S m).1 =
      ((S.filter (fun t => decide (50 < (pyStrip t).length))).map
        (fun t => dget k (analyze_text t m).1)).foldr max 0 := by
  unfold analyze_and_merge_keyword_counts
  split
  · next h =>
    rcases h with h | h
    · rw [h]
      rfl
    · subst h
      rw [dget_nil]
      symm
      apply foldr_max_zero
      intro x hx
      obtain ⟨t, _, rfl⟩ := List.mem_map.1 hx
      rw [analyze_text_empty_map, dget_nil]
  · dsimp only
    split
    · next hv =>
      rw [hv, dget_nil]
      rfl
    · next hv =>
      rw [merge_outer k _ [] ?_, List.map_map]
      · rw [dget_nil, Nat.zero_max]
        rfl
      · intro d hd
        obtain ⟨t, _, rfl⟩ := List.mem_map.1 hd
        exact nodup_consistent (analyze_text_nodup t m)

theorem filter_idem {p : Text → Bool} :
    ∀ (l : List Text), (l.filter p).filter p = l.filter p := by
  intro l
  induction l with
  | nil => rfl
  | cons a t ih =>
    rw [List.filter_cons]
    split
    · next h => rw [List.filter_cons, if_pos h, ih]
    · exact ih

/-! Variant-set facts for generate_keyword_variants. -/

theorem spaceJoin_no_space {j : Char} (hj : j ≠ ' ') (n : Text) :
    ' ' ∉ spaceJoin j n := by
  intro hmem
  obtain ⟨a, _, he⟩ := List.mem_map.1 hmem
  by_cases ha : a = ' '
  · rw [if_pos ha] at he
    exact hj he
  · rw [if_neg ha] at he
    exact ha he

theorem spaceJoin_length (j : Char) (n : Text) :
    (spaceJoin j n).length = n.length := List.length_map _ _

theorem spaceJoin_inj {j1 j2 : Char} :
    ∀ {n : Text}, ' ' ∈ n → spaceJoin j1 n = spaceJoin j2 n → j1 = j2 := by
  intro n
  induction n with
  | nil => intro h; simp at h
  | cons a t ih =>
    intro hmem heq
    unfold spaceJoin at heq
    rw [List.map_cons, List.map_cons] at heq
    injection heq with h1 h2
    by_cases ha : a = ' '
    · rw [if_pos ha, if_pos ha] at h1
      exact h1
    · rcases List.mem_cons.1 hmem with h | h
      · exact absurd h.symm ha
      · exact ih h h2

theorem filter_space_shorter {n : Text} (h : ' ' ∈ n) :
    (n.filter (fun c => decide (c ≠ ' '))).length < n.length := by
  induction n with
  | nil => simp at h
  | cons a t ih =>
    rw [List.filter_cons]
    by_cases ha : a = ' '
    · rw [if_neg (by simp [ha])]
      calc (t.filter (fun c => decide (c ≠ ' '))).length
          ≤ t.length := List.length_filter_le _ _
        _ < (a :: t).length := by simp
    · rcases List.mem_cons.1 h with h2 | h2
      · exact absurd h2.symm ha
      · rw [if_pos (by simp [ha])]
        simpa using ih h2

/-! Claim theorems. -/

/-- C2 (counterexample): normalize is not idempotent on every string.
For the input "AØ" the first pass lowercases Ø to ø and outputs "aø",
which the font-repair table then rewrites (key "aø" → "à") on the
second pass, yielding "a". -/
theorem c2_idempotence_counterexample :
    normalize_text (normalize_text ("AØ".toList)) ≠
      normalize_text ("AØ".toList) := by decide

/-- C2 (amended): normalize is idempotent on exactly those inputs whose
normalized form is left unchanged by the font-repair pass; all later
pipeline stages are always the identity on normalize output. -/
theorem c2_normalize_idempotent_amended :
    ∀ s : Text, fix_font_errors (normalize_text s) = normalize_text s →
      normalize_text (normalize_text s) = normalize_text s := fun s h =>
  normalize_fixpoint _ (normalize_chars s) (normalize_chain s)
    (normalize_wsOnly s) (normalize_head s) (normalize_last s) h

/-- C2 witness: the amended idempotence at the concrete input
"Dữ liệu 2024!". -/
theorem c2_normalize_idempotent_witness :
    fix_font_errors (normalize_text ("Dữ liệu 2024!".toList)) =
      normalize_text ("Dữ liệu 2024!".toList) ∧
    normalize_text (normalize_text ("Dữ liệu 2024!".toList)) =
      normalize_text ("Dữ liệu 2024!".toList) :=
  ⟨by decide, c2_normalize_idempotent_amended _ (by decide)⟩

/-- C8 (counterexample): normalize output is not restricted to letters,
digits and spaces — the underscore is a Python word character
(`[^\w\s]` does not match it), so it survives normalization. -/
theorem c8_underscore_counterexample :
    normalize_text ("_".toList) = ("_".toList) ∧
      isLetterChar '_' = false ∧ isDigitChar '_' = false ∧ '_' ≠ ' ' := by
  decide

/-- C8 (amended): every character of normalize output is a word
character (letter, digit, or underscore) or a space; whitespace is
collapsed to single plain spaces with none at either end. -/
theorem c8_normalized_alphabet_amended :
    ∀ t : Text,
      (∀ c ∈ normalize_text t, isWordChar c = true ∨ c = ' ') ∧
      NoTwoSpaces (normalize_text t) ∧ WsOnlySpace (normalize_text t) ∧
      HeadNotWs (normalize_text t) ∧ LastNotWs (normalize_text t) :=
  fun t =>
    ⟨fun c hc => (normalize_chars t c hc).imp And.left id,
      normalize_chain t, normalize_wsOnly t, normalize_head t,
      normalize_last t⟩

/-- C9: the encoding-repair table does alter valid Vietnamese text.
Its key 'Ì' (U+00CC) is a valid precomposed Vietnamese letter — the
code's own diacritic table lists it ('Ì' → i) — yet fix_font_errors
rewrites the one-character text "Ì" to "è", contradicting the intent
stated in the code comment and the specification. -/
theorem c9_font_fix_alters_valid_vietnamese :
    fix_font_errors ("Ì".toList) = ("è".toList) ∧
      tlookup 'Ì' vnDiacriticPairs = some 'i' := by decide

/-- C5: a variant only matches at a position when the adjacent
characters on both sides (when they exist) are not lowercase letters
or digits, and keyword "ngan" produces zero matches in the text
"nganh". -/
theorem c5_boundary_correctness :
    (∀ (text v : Text) (i : Nat), matchVariantAt text v i = true →
      (i = 0 ∨ isLowerDigitChar (text.getD (i - 1) ' ') = false) ∧
      (text.length ≤ i + v.length ∨
        isLowerDigitChar (text.getD (i + v.length) ' ') = false)) ∧
    count_keyword_matches ("nganh".toList) ("ngan".toList) = 0 := by
  constructor
  · intro text v i h
    unfold matchVariantAt at h
    rw [Bool.and_eq_true, Bool.and_eq_true] at h
    obtain ⟨⟨_, hA⟩, hB⟩ := h
    have hld : ∀ c : Char, isBoundaryChar c = false →
        isLowerDigitChar c = false := by
      intro c hb
      unfold isBoundaryChar at hb
      unfold isLowerDigitChar
      rcases Bool.or_eq_false_iff.1 hb with ⟨hb2, _⟩
      rcases Bool.or_eq_false_iff.1 hb2 with ⟨h1, h2⟩
      rw [h1, h2]
      rfl
    constructor
    · cases i with
      | zero => exact Or.inl rfl
      | succ j =>
        right
        rw [Nat.succ_sub_one]
        apply hld
        rw [Bool.not_eq_true'] at hA
        exact hA
    · by_cases hle : text.length ≤ i + v.length
      · exact Or.inl hle
      · right
        rw [if_neg hle, Bool.not_eq_true'] at hB
        exact hld _ hB
  · decide

/-- C5 witness: the boundary consequence at the concrete match of
variant "ngan" in text "ngan" at position 0. -/
theorem c5_boundary_witness :
    ((0 : Nat) = 0 ∨
      isLowerDigitChar (("ngan".toList).getD (0 - 1) ' ') = false) ∧
    (("ngan".toList).length ≤ 0 + ("ngan".toList).length ∨
      isLowerDigitChar
        (("ngan".toList).getD (0 + ("ngan".toList).length) ' ') = false) :=
  c5_boundary_correctness.1 ("ngan".toList) ("ngan".toList) 0 (by decide)

/-- C7: per-keyword failures are isolated.  In the analysis loop a
keyword whose counting step fails (returns none, the model of the
per-keyword try/except) is omitted from the keyword counts, while
every keyword whose counting step returns a value is still processed
normally (recorded exactly when its count is positive). -/
theorem c7_error_isolation :
    ∀ (f : Text → Option Nat) (m : List (Text × Nat)) (k : Text),
      (f k = none → dlookup k (analyzeLoop f m [] []).1 = none) ∧
      (∀ (g c : Nat), (k, g) ∈ m → f k = some c →
        dget k (analyzeLoop f m [] []).1 = if 0 < c then c else 0) := by
  intro f m k
  constructor
  · intro hnone
    rw [analyzeLoop_kw_skip f m [] [] k fun c hc => by
      rw [hnone] at hc
      cases hc]
    rfl
  · intro g c hm hf
    by_cases hc : 0 < c
    · rw [if_pos hc]
      exact analyzeLoop_kw_pos f m [] [] k c hf hc
        (List.mem_map_of_mem Prod.fst hm)
    · rw [if_neg hc]
      unfold dget
      rw [analyzeLoop_kw_skip f m [] [] k fun c2 hc2 => by
        rw [hf] at hc2
        cases hc2
        omega]
      rfl

/-- C7 witness: with a counter failing on keyword "bad" and returning
2 on keyword "ok", the loop omits "bad" and still counts "ok". -/
theorem c7_error_isolation_witness :
    dlookup ("bad".toList)
      (analyzeLoop
        (fun k => if k = ("bad".toList) then none else some 2)
        [(("bad".toList), 0), (("ok".toList), 1)] [] []).1 = none ∧
    dget ("ok".toList)
      (analyzeLoop
        (fun k => if k = ("bad".toList) then none else some 2)
        [(("bad".toList), 0), (("ok".toList), 1)] [] []).1 =
      if 0 < 2 then 2 else 0 :=
  ⟨(c7_error_isolation _ _ _).1 (by decide),
    (c7_error_isolation _ _ _).2 1 2 (by decide) (by decide)⟩

/-- C4: in every mode (guarded empty return, single pass, and batched)
the group count of each group equals the sum, over the keyword-map
entries assigned to that group, of the returned per-keyword counts. -/
theorem c4_group_aggregation :
    ∀ (t : Text) (m : List (Text × Nat)) (g : Nat),
      dget g (analyze_text t m).2 =
        (m.map (fun e =>
          if e.2 = g then dget e.1 (analyze_text t m).1 else 0)).sum := by
  intro t m g
  unfold analyze_text
  split
  · rw [dget_nil]
    symm
    apply sum_zero_fun
    intro e _
    by_cases hg : e.2 = g
    · rw [if_pos hg, dget_nil]
    · rw [if_neg hg]
  · split
    · unfold analyze_text_batched
      exact batchedFold_gc m _ ([], []) (by simp [dkeys]) (by simp [dkeys])
        (fun g0 => by
          rw [dget_nil]
          symm
          apply sum_zero_fun
          intro e _
          by_cases hg : e.2 = g0
          · rw [if_pos hg, dget_nil]
          · rw [if_neg hg]) g
    · unfold analyze_single
      split
      · rw [dget_nil]
        symm
        apply sum_zero_fun
        intro e _
        by_cases hg : e.2 = g
        · rw [if_pos hg, dget_nil]
        · rw [if_neg hg]
      · exact single_gc (normalize_text t) m g

/-- C3 (counterexample): the batch switch tests the raw length, not
the normalized length.  On 99999 dots followed by "ab." the raw length
100002 forces batch mode although the normalized text "ab" has length
2; the chunk boundary splits the only occurrence of keyword "ab", so
the result ([], []) differs from what normalized-length dispatch (the
claim as stated) would produce. -/
theorem c3_batch_threshold_counterexample :
    analyze_text cexText cexMap ≠
      (if CHUNK_SIZE < (normalize_text cexText).length
        then analyze_text_batched cexText cexMap CHUNK_SIZE
        else analyze_single cexText cexMap) := by
  rw [cex_code_result, cex_claim_side]
  decide

/-- C3 (amended): analyze switches to batch mode exactly when the raw
input length exceeds 100000 characters; in batch mode the raw text is
partitioned into non-overlapping chunks of at most 100000 characters
whose concatenation is the text, each chunk is normalized and analyzed
independently, and per-keyword counts are summed across chunks; at or
below the threshold the count is the single-pass count of the
normalized text. -/
theorem c3_batch_threshold_amended :
    ∀ (t : Text) (m : List (Text × Nat)) (k : Text) (g : Nat),
      (k, g) ∈ m →
      (CHUNK_SIZE < t.length →
        (chunksOf CHUNK_SIZE t).flatten = t ∧
        (∀ c ∈ chunksOf CHUNK_SIZE t, c ≠ [] ∧ c.length ≤ CHUNK_SIZE) ∧
        dget k (analyze_text t m).1 =
          ((chunksOf CHUNK_SIZE t).map
            (fun c => count_in (normalize_text c) k)).sum) ∧
      (t.length ≤ CHUNK_SIZE →
        dget k (analyze_text t m).1 = count_in (normalize_text t) k) := by
  intro t m k g hm
  constructor
  · intro hlen
    refine ⟨chunksF_join (by decide) _ t (le_refl _),
      chunksF_mem (by decide) _ t (le_refl _), ?_⟩
    have hne : ¬(t = [] ∨ m = []) := by
      rintro (h | h)
      · rw [h] at hlen
        simp [CHUNK_SIZE] at hlen
      · rw [h] at hm
        simp at hm
    unfold analyze_text
    rw [if_neg hne, if_pos hlen]
    unfold analyze_text_batched
    rw [batchedFold_kw m k g hm _ ([], []),
      show dget k (([], []) :
        List (Text × Nat) × List (Nat × Nat)).1 = 0 from rfl,
      Nat.zero_add]
  · intro hle
    by_cases hg : t = [] ∨ m = []
    · rcases hg with h | h
      · subst h
        rfl
      · rw [h] at hm
        simp at hm
    · unfold analyze_text
      rw [if_neg hg, if_neg (by omega)]
      unfold analyze_single
      rw [if_neg hg]
      exact single_kw _ m k g hm

/-- C3 witness: the batch-mode conclusion at 100001 copies of the
character x with keyword map containing "ab". -/
theorem c3_batch_threshold_witness :
    (chunksOf CHUNK_SIZE (List.replicate 100001 'x')).flatten =
      List.replicate 100001 'x' ∧
    (∀ c ∈ chunksOf CHUNK_SIZE (List.replicate 100001 'x'),
      c ≠ [] ∧ c.length ≤ CHUNK_SIZE) ∧
    dget ("ab".toList)
      (analyze_text (List.replicate 100001 'x') [(("ab".toList), 0)]).1 =
      ((chunksOf CHUNK_SIZE (List.replicate 100001 'x')).map
        (fun c => count_in (normalize_text c) ("ab".toList))).sum :=
  (c3_batch_threshold_amended (List.replicate 100001 'x')
    [(("ab".toList), 0)] ("ab".toList) 0 (by decide)).1
    (by rw [List.length_replicate]; decide)

/-- C1 (counterexample): with the exact sources of the claim,
A = "ngân hàng ngân hàng" (analyzed alone: count 2) and
B = "ngân hàng" (analyzed alone: count 1), the reconciler returns
empty counts — not 2 — because both sources are at most 50 characters
long and are discarded by the length filter before any analysis. -/
theorem c1_reconcile_counterexample :
    (analyze_text ("ngân hàng ngân hàng".toList)
      [(("ngân hàng".toList), 0)]).1 = [(("ngân hàng".toList), 2)] ∧
    (analyze_text ("ngân hàng".toList)
      [(("ngân hàng".toList), 0)]).1 = [(("ngân hàng".toList), 1)] ∧
    analyze_and_merge_keyword_counts
      [("ngân hàng ngân hàng".toList), ("ngân hàng".toList)]
      [(("ngân hàng".toList), 0)] = ([], []) := by decide

/-- C1 (amended): for every source list and keyword map, the
reconciled count of each keyword equals the maximum count observed in
any single analyzed source among the sources surviving the raw
length-above-50 filter (never the sum, and zero when none survive);
with the claim's sources padded past the filter with neutral " x"
filler, the reconciled count of "ngân hàng" is 2, the max, not 3. -/
theorem c1_reconcile_max_amended :
    (∀ (sources : List Text) (m : List (Text × Nat)) (k : Text),
      dget k (analyze_and_merge_keyword_counts sources m).1 =
        ((sources.filter (fun t => decide (50 < (pyStrip t).length))).map
          (fun t => dget k (analyze_text t m).1)).foldr max 0) ∧
    dget ("ngân hàng".toList)
      (analyze_and_merge_keyword_counts
        [("ngân hàng ngân hàng x x x x x x x x x x x x x x x x x x x x x".toList),
         ("ngân hàng x x x x x x x x x x x x x x x x x x x x x".toList)]
        [(("ngân hàng".toList), 0)]).1 = 2 :=
  ⟨merged_dget, by decide⟩

/-- C6: variant generation — a normalized keyword shorter than 2
characters yields no variants and a matcher that matches nothing on
any text; a space-free normalized keyword yields exactly itself; a
keyword with spaces yields the set containing the normalized form, the
hyphen-, underscore- and dot-joined forms, and the no-space form
exactly when the latter is longer than 2 characters, with no
duplicates. -/
theorem c6_variant_generation :
    ∀ kw : Text,
      ((normalize_keyword kw).length < 2 →
        generate_keyword_variants kw = [] ∧
        ∀ text : Text,
          countMatches (generate_keyword_variants kw) text = 0) ∧
      (¬ (normalize_keyword kw).length < 2 → ' ' ∉ normalize_keyword kw →
        generate_keyword_variants kw = [normalize_keyword kw]) ∧
      (¬ (normalize_keyword kw).length < 2 → ' ' ∈ normalize_keyword kw →
        ((∀ v : Text, v ∈ generate_keyword_variants kw ↔
          (v = normalize_keyword kw ∨
            (v = (normalize_keyword kw).filter (fun c => decide (c ≠ ' ')) ∧
              2 < v.length) ∨
            v = spaceJoin '-' (normalize_keyword kw) ∨
            v = spaceJoin '_' (normalize_keyword kw) ∨
            v = spaceJoin '.' (normalize_keyword kw))) ∧
          (generate_keyword_variants kw).Nodup)) := by
  intro kw
  refine ⟨?_, ?_, ?_⟩
  · intro hlen
    have hv : generate_keyword_variants kw = [] := by
      unfold generate_keyword_variants
      rw [if_pos hlen]
    refine ⟨hv, fun text => ?_⟩
    rw [hv]
    exact countMF_no_variants text _ 0
  · intro hlen hsp
    unfold generate_keyword_variants
    rw [if_neg hlen, if_neg hsp]
  · intro hlen hsp
    have hgv : generate_keyword_variants kw =
        [normalize_keyword kw] ++
          (if 2 < ((normalize_keyword kw).filter
              (fun c => decide (c ≠ ' '))).length
            then [(normalize_keyword kw).filter (fun c => decide (c ≠ ' '))]
            else []) ++
          [spaceJoin '-' (normalize_keyword kw),
            spaceJoin '_' (normalize_keyword kw),
            spaceJoin '.' (normalize_keyword kw)] := by
      unfold generate_keyword_variants
      rw [if_neg hlen, if_pos hsp]
    set n := normalize_keyword kw with hn
    set ns := n.filter (fun c => decide (c ≠ ' ')) with hnsdef
    have hlen_ns : ns.length < n.length := filter_space_shorter hsp
    have hnj : ∀ j : Char, j ≠ ' ' → n ≠ spaceJoin j n := by
      intro j hj he
      exact spaceJoin_no_space hj n (he ▸ hsp)
    have hnsj : ∀ j : Char, ns ≠ spaceJoin j n := by
      intro j he
      have h2 := hlen_ns
      rw [he, spaceJoin_length] at h2
      omega
    have hnns : n ≠ ns := by
      intro he
      rw [← he] at hlen_ns
      omega
    have hjj : ∀ j1 j2 : Char, j1 ≠ j2 →
        spaceJoin j1 n ≠ spaceJoin j2 n :=
      fun j1 j2 hj he => hj (spaceJoin_inj hsp he)
    constructor
    · intro v
      rw [hgv]
      by_cases h2 : 2 < ns.length
      · rw [if_pos h2]
        simp only [List.cons_append, List.nil_append, List.mem_cons,
          List.not_mem_nil, or_false]
        constructor
        · rintro (rfl | rfl | rfl | rfl | rfl)
          · exact Or.inl rfl
          · exact Or.inr (Or.inl ⟨rfl, h2⟩)
          · exact Or.inr (Or.inr (Or.inl rfl))
          · exact Or.inr (Or.inr (Or.inr (Or.inl rfl)))
          · exact Or.inr (Or.inr (Or.inr (Or.inr rfl)))
        · rintro (rfl | ⟨rfl, _⟩ | rfl | rfl | rfl)
          · exact Or.inl rfl
          · exact Or.inr (Or.inl rfl)
          · exact Or.inr (Or.inr (Or.inl rfl))
          · exact Or.inr (Or.inr (Or.inr (Or.inl rfl)))
          · exact Or.inr (Or.inr (Or.inr (Or.inr rfl)))
      · rw [if_neg h2]
        simp only [List.cons_append, List.nil_append, List.mem_cons,
          List.not_mem_nil, or_false]
        constructor
        · rintro (rfl | rfl | rfl | rfl)
          · exact Or.inl rfl
          · exact Or.inr (Or.inr (Or.inl rfl))
          · exact Or.inr (Or.inr (Or.inr (Or.inl rfl)))
          · exact Or.inr (Or.inr (Or.inr (Or.inr rfl)))
        · rintro (rfl | ⟨rfl, hvl⟩ | rfl | rfl | rfl)
          · exact Or.inl rfl
          · exact absurd hvl h2
          · exact Or.inr (Or.inl rfl)
          · exact Or.inr (Or.inr (Or.inl rfl))
          · exact Or.inr (Or.inr (Or.inr rfl))
    · rw [hgv]
      by_cases h2 : 2 < ns.length
      · rw [if_pos h2]
        simp only [List.cons_append, List.nil_append]
        refine List.nodup_cons.2 ⟨?_, List.nodup_cons.2 ⟨?_,
          List.nodup_cons.2 ⟨?_, List.nodup_cons.2 ⟨?_,
            List.nodup_singleton _⟩⟩⟩⟩
        · simp only [List.mem_cons, List.not_mem_nil, or_false]
          rintro (h | h | h | h)
          · exact hnns h
          · exact hnj '-' (by decide) h
          · exact hnj '_' (by decide) h
          · exact hnj '.' (by decide) h
        · simp only [List.mem_cons, List.not_mem_nil, or_false]
          rintro (h | h | h)
          · exact hnsj '-' h
          · exact hnsj '_' h
          · exact hnsj '.' h
        · simp only [List.mem_cons, List.not_mem_nil, or_false]
          rintro (h | h)
          · exact hjj '-' '_' (by decide) h
          · exact hjj '-' '.' (by decide) h
        · simp only [List.mem_cons, List.not_mem_nil, or_false]
          intro h
          exact hjj '_' '.' (by decide) h
      · rw [if_neg h2]
        simp only [List.cons_append, List.nil_append]
        refine List.nodup_cons.2 ⟨?_, List.nodup_cons.2 ⟨?_,
          List.nodup_cons.2 ⟨?_, List.nodup_singleton _⟩⟩⟩
        · simp only [List.mem_cons, List.not_mem_nil, or_false]
          rintro (h | h | h)
          · exact hnj '-' (by decide) h
          · exact hnj '_' (by decide) h
          · exact hnj '.' (by decide) h
        · simp only [List.mem_cons, List.not_mem_nil, or_false]
          rintro (h | h)
          · exact hjj '-' '_' (by decide) h
          · exact hjj '-' '.' (by decide) h
        · simp only [List.mem_cons, List.not_mem_nil, or_false]
          intro h
          exact hjj '_' '.' (by decide) h

/-- C6 witness: the short-keyword conclusion at keyword "a" evaluated
on the text "xyz", and the space-free conclusion at keyword "ab". -/
theorem c6_variant_witness :
    (generate_keyword_variants ("a".toList) = [] ∧
      countMatches (generate_keyword_variants ("a".toList))
        ("xyz".toList) = 0) ∧
    generate_keyword_variants ("ab".toList) =
      [normalize_keyword ("ab".toList)] :=
  ⟨⟨((c6_variant_generation ("a".toList)).1 (by decide)).1,
      ((c6_variant_generation ("a".toList)).1 (by decide)).2 ("xyz".toList)⟩,
    (c6_variant_generation ("ab".toList)).2.1 (by decide) (by decide)⟩

/-- C10 (counterexample): the reconciler filters on raw stripped
length, not normalized length.  The source "ngan hang" followed by 50
dots has raw stripped length 59 (> 50) but normalized length 9 (< 50):
the code keeps it and finds "ngân hàng" once, while the reconciler as
the specification words it (reconcile_specFiltered) discards the
source and returns empty counts. -/
theorem c10_filter_counterexample :
    analyze_and_merge_keyword_counts
      [("ngan hang..................................................".toList)]
      [(("ngân hàng".toList), 0)] =
      ([(("ngân hàng".toList), 1)], [(0, 1)]) ∧
    reconcile_specFiltered
      [("ngan hang..................................................".toList)]
      [(("ngân hàng".toList), 0)] = ([], []) := by decide

/-- C10 (amended): the reconciler discards exactly the sources whose
raw whitespace-stripped length is at most 50 characters before any
analysis — the result only depends on the surviving sources — and when
no source survives (in particular for an empty source list) it returns
empty keyword and group counts rather than an error. -/
theorem c10_filter_amended :
    ∀ (sources : List Text) (m : List (Text × Nat)),
      analyze_and_merge_keyword_counts sources m =
        analyze_and_merge_keyword_counts
          (sources.filter (fun t => decide (50 < (pyStrip t).length))) m ∧
      (sources.filter (fun t => decide (50 < (pyStrip t).length)) = [] →
        analyze_and_merge_keyword_counts sources m = ([], [])) := by
  intro sources m
  have hempty : ∀ S : List Text, S.filter
      (fun t => decide (50 < (pyStrip t).length)) = [] →
      analyze_and_merge_keyword_counts S m = ([], []) := by
    intro S hv
    by_cases hg : S = [] ∨ m = []
    · unfold analyze_and_merge_keyword_counts
      rw [if_pos hg]
    · unfold analyze_and_merge_keyword_counts
      rw [if_neg hg]
      dsimp only
      rw [if_pos hv]
  refine ⟨?_, hempty sources⟩
  by_cases hm : m = []
  · subst hm
    unfold analyze_and_merge_keyword_counts
    rw [if_pos (Or.inr rfl), if_pos (Or.inr rfl)]
  by_cases hv : sources.filter (fun t => decide (50 < (pyStrip t).length)) = []
  · rw [hempty sources hv, hempty _ (by rw [hv]; rfl)]
  · have hs : sources ≠ [] := by
      intro h
      apply hv
      rw [h]
      rfl
    unfold analyze_and_merge_keyword_counts
    rw [if_neg (show ¬(sources = [] ∨ m = []) from fun h => h.elim hs hm)]
    dsimp only
    rw [if_neg hv,
      if_neg (show ¬(sources.filter
          (fun t => decide (50 < (pyStrip t).length)) = [] ∨ m = [])
        from fun h => h.elim (fun h1 => hv h1) hm)]
    rw [filter_idem, if_neg hv]

/-- C10 witness: the empty-result conclusion at a single too-short
source. -/
theorem c10_filter_witness :
    analyze_and_merge_keyword_counts [("x".toList)] [(("a".toList), 0)] =
      analyze_and_merge_keyword_counts
        ([("x".toList)].filter (fun t => decide (50 < (pyStrip t).length)))
        [(("a".toList), 0)] ∧
    analyze_and_merge_keyword_counts [("x".toList)] [(("a".toList), 0)] =
      ([], []) :=
  ⟨(c10_filter_amended [("x".toList)] [(("a".toList), 0)]).1,
    (c10_filter_amended [("x".toList)] [(("a".toList), 0)]).2 (by decide)⟩

end TextMining
